import Mathlib

/-!
Verification of the process-scheduling simulator in `src/process_scheduling.cpp`.

The C++ program simulates six CPU-scheduling disciplines (FCFS, SJF, SRTF,
Round Robin, non-preemptive Priority, preemptive Priority) over a fixed list of
processes, filling in each process's completion/turnaround/waiting/response
times, and then aggregates averages and throughput.

Shallow embedding conventions:
* C++ `int` fields are modelled as `Int` (no overflow is relevant to the
  claims; all simulated quantities stay tiny).
* `std::vector<Process>` is a `List Process`; the priority queues and the FIFO
  queue hold indices (`Nat`) into that list, mirroring the `Process*` pointers.
* `std::priority_queue` guarantees only that `top()` is a maximal element
  w.r.t. the strict comparator; the order among tied elements is
  implementation-defined.  `selectMax` models this: it returns a maximal
  element (the earliest-inserted one among the tied maxima) and the remaining
  queue contents.
* `std::sort` guarantees only a sorted permutation; the model uses a stable
  insertion sort (`sortByArrival`) by `arrivalTime`.
* The C++ `while (completed < processes.size())` loops are modelled with a
  step function plus explicit fuel; exhausted fuel yields
  `SimError.outOfFuel` (the C++ loop would still be running), and the
  out-of-bounds read `processes[i]` that the C++ performs when the ready set
  is empty and `i == processes.size()` yields `SimError.outOfBounds`.
* The C++ `double` divisions in `calculateMetrics` are modelled over `ℚ` with
  an explicit `Option`: a division whose denominator is `0` (IEEE NaN in the
  C++ program) is `none`.
-/

/-- The `Process` record of the C++ program (all fields `int`). -/
structure Process where
  id : Int
  arrivalTime : Int
  burstTime : Int
  remainingTime : Int
  completionTime : Int
  turnaroundTime : Int
  waitingTime : Int
  responseTime : Int
  priority : Int
deriving Repr, DecidableEq

/-- The C++ constructor `Process(id, arrival, burst, priority = 0)`:
`remainingTime` starts at `burst`, `responseTime` at the sentinel `-1`, the
other output fields at `0`. -/
def Process.init (id arrival burst priority : Int) : Process :=
  { id := id
    arrivalTime := arrival
    burstTime := burst
    remainingTime := burst
    completionTime := 0
    turnaroundTime := 0
    waitingTime := 0
    responseTime := -1
    priority := priority }

instance : Inhabited Process := ⟨Process.init 0 0 0 0⟩

/-- Stable insertion of a process into a list sorted by `arrivalTime`
(the new element goes in front of later elements with equal arrival). -/
def insertArr (p : Process) : List Process → List Process
  | [] => [p]
  | q :: qs => if p.arrivalTime ≤ q.arrivalTime then p :: q :: qs else q :: insertArr p qs

/-- Model of the `std::sort(..., a.arrivalTime < b.arrivalTime)` calls.
`std::sort` fixes only the sorted order, NOT the order among equal arrival
times (it is not a stable sort); an executable model must still pick one
order, and this one picks the stable order.  No theorem below relies on that
choice: properties of the order among tied arrivals are asserted only under a
pairwise-distinct-arrivals hypothesis, where every correct sort agrees. -/
def sortByArrival : List Process → List Process
  | [] => []
  | p :: ps => insertArr p (sortByArrival ps)

/-- The admission loop
`for (; i < processes.size() && processes[i].arrivalTime <= currentTime; ++i)`
shared by SJF/SRTF/RR/Priority/PreemptivePriority: returns the new value of
`i`; the indices admitted are `[i, result)`. -/
def admitFromFuel (procs : List Process) (t : Int) : Nat → Nat → Nat
  | 0, i => i
  | fuel + 1, i =>
    if h : i < procs.length then
      if (procs.get ⟨i, h⟩).arrivalTime ≤ t then admitFromFuel procs t fuel (i + 1)
      else i
    else i

/-- The admission loop proper; `procs.length - i` iterations always suffice. -/
def admitFrom (procs : List Process) (t : Int) (i : Nat) : Nat :=
  admitFromFuel procs t (procs.length - i) i

/-- Model of `std::priority_queue::top`/`pop` on contents `x :: l` (in
insertion order) with strict comparator `lt`: returns a maximal element
together with the remaining contents.  `std::priority_queue` leaves the pop
order among tied maxima unspecified (libstdc++ pops 4-way ties out of
insertion order); the model must pick one and picks the earliest inserted.
No theorem below asserts the tie order as a program property: only
maximality of the popped element, which holds for any heap, is used. -/
def selectMax (lt : α → α → Bool) (x : α) : List α → α × List α
  | [] => (x, [])
  | y :: ys =>
    if lt x y then
      ((selectMax lt y ys).1, x :: (selectMax lt y ys).2)
    else
      ((selectMax lt x ys).1, y :: (selectMax lt x ys).2)

/-- Comparator on queue indices: compare the processes they point to. -/
def readyCmp (procs : List Process) (lt : Process → Process → Bool) (a b : Nat) : Bool :=
  lt (procs.getD a default) (procs.getD b default)

/-- SJF heap comparator `a->burstTime > b->burstTime` (so the top of the
max-heap is the minimum-burst process). -/
def sjfCmp (a b : Process) : Bool := decide (b.burstTime < a.burstTime)

/-- SRTF heap comparator `a->remainingTime > b->remainingTime` (top is the
minimum-remaining-time process). -/
def srtfCmp (a b : Process) : Bool := decide (b.remainingTime < a.remainingTime)

/-- Non-preemptive Priority heap comparator `a->priority < b->priority`
(top is the process with the largest numeric `priority` value). -/
def priCmp (a b : Process) : Bool := decide (a.priority < b.priority)

/-- Preemptive Priority heap comparator `a->priority > b->priority`
(top is the process with the smallest numeric `priority` value). -/
def ppCmp (a b : Process) : Bool := decide (b.priority < a.priority)

/-- The response-time block shared by all five queue-based schedulers:
`if (p->responseTime == -1) p->responseTime = currentTime - p->arrivalTime`. -/
def setResponse (t : Int) (p : Process) : Process :=
  if p.responseTime = -1 then { p with responseTime := t - p.arrivalTime } else p

/-- The slice-execution statement `p->remainingTime -= executionTime`. -/
def subRemaining (e : Int) (p : Process) : Process :=
  { p with remainingTime := p.remainingTime - e }

/-- The finalization block shared by all six schedulers, at completion
clock `t`: `completionTime = t; turnaroundTime = completionTime -
arrivalTime; waitingTime = turnaroundTime - burstTime`. -/
def finalizeAt (t : Int) (p : Process) : Process :=
  { p with
      completionTime := t
      turnaroundTime := t - p.arrivalTime
      waitingTime := (t - p.arrivalTime) - p.burstTime }

/-- The mutable state of one simulation run: the process vector, the ready
queue (indices, in insertion order), the simulated clock `currentTime`, the
admission index `i`, and the `completed` counter. -/
structure SimState where
  procs : List Process
  ready : List Nat
  time : Int
  i : Nat
  completed : Nat
deriving Repr, DecidableEq

/-- Initial state of a `schedule()` run. -/
def initState (l : List Process) : SimState :=
  { procs := l, ready := [], time := 0, i := 0, completed := 0 }

/-- Errors of the embedded simulation: `outOfBounds` models the C++ reading
`processes[i]` past the end of the vector; `outOfFuel` models a loop that is
still running after the given number of iterations. -/
inductive SimError where
  | outOfFuel
  | outOfBounds
deriving Repr, DecidableEq

instance {ε α} [DecidableEq ε] [DecidableEq α] : DecidableEq (Except ε α) := fun a b =>
  match a, b with
  | .error x, .error y =>
    if h : x = y then .isTrue (by rw [h]) else .isFalse (fun hc => h (by cases hc; rfl))
  | .error _, .ok _ => .isFalse (fun hc => by cases hc)
  | .ok _, .error _ => .isFalse (fun hc => by cases hc)
  | .ok x, .ok y =>
    if h : x = y then .isTrue (by rw [h]) else .isFalse (fun hc => h (by cases hc; rfl))

/-- Result of one loop iteration. -/
inductive StepRes where
  | done (out : List Process)
  | oob
  | next (s : SimState)
deriving Repr

/-- One iteration of the SJF / non-preemptive Priority loop (they differ only
in the heap comparator `lt`): admit arrived processes, and either fast-forward
the clock to the next arrival (empty ready set) or pop the heap top, set its
response time if unset, and run it to completion. -/
def nonpreStep (lt : Process → Process → Bool) (s : SimState) : StepRes :=
  if s.completed < s.procs.length then
    let i2 := admitFrom s.procs s.time s.i
    let ready2 := s.ready ++ List.range' s.i (i2 - s.i)
    match ready2 with
    | [] =>
      if h : i2 < s.procs.length then
        .next { s with time := (s.procs.get ⟨i2, h⟩).arrivalTime, i := i2 }
      else
        .oob
    | j :: rest =>
      let sel := selectMax (readyCmp s.procs lt) j rest
      let p1 := setResponse s.time (s.procs.getD sel.1 default)
      let comp := s.time + p1.burstTime
      .next { procs := s.procs.set sel.1 (finalizeAt comp p1), ready := sel.2, time := comp,
              i := i2, completed := s.completed + 1 }
  else
    .done s.procs

/-- One iteration of the SRTF / preemptive Priority loop: as `nonpreStep`, but
the popped process runs only `min(remainingTime, nextArrival - currentTime)`
(its full remaining time if nothing else will arrive) and is re-inserted if
not finished. -/
def preStep (lt : Process → Process → Bool) (s : SimState) : StepRes :=
  if s.completed < s.procs.length then
    let i2 := admitFrom s.procs s.time s.i
    let ready2 := s.ready ++ List.range' s.i (i2 - s.i)
    match ready2 with
    | [] =>
      if h : i2 < s.procs.length then
        .next { s with time := (s.procs.get ⟨i2, h⟩).arrivalTime, i := i2 }
      else
        .oob
    | j :: rest =>
      let sel := selectMax (readyCmp s.procs lt) j rest
      let p1 := setResponse s.time (s.procs.getD sel.1 default)
      let exec := if h : i2 < s.procs.length then
                    min p1.remainingTime ((s.procs.get ⟨i2, h⟩).arrivalTime - s.time)
                  else p1.remainingTime
      let p2 := subRemaining exec p1
      let t2 := s.time + exec
      if p2.remainingTime = 0 then
        .next { procs := s.procs.set sel.1 (finalizeAt t2 p2), ready := sel.2, time := t2,
                i := i2, completed := s.completed + 1 }
      else
        .next { procs := s.procs.set sel.1 p2, ready := sel.2 ++ [sel.1], time := t2, i := i2,
                completed := s.completed }
  else
    .done s.procs

/-- Result of one Round-Robin iteration; `slice` is a ghost observation
`(id, sliceStart, sliceEnd)` of the executed slice (the C++ program keeps no
such trace; it is recorded here only to state Scenario C). -/
inductive RRStepRes where
  | done (out : List Process)
  | oob
  | next (s : SimState) (slice : Option (Int × Int × Int))
deriving Repr, DecidableEq

/-- One iteration of the Round-Robin loop: admit arrived processes to the back
of the FIFO queue, dequeue the front, run it `min(timeQuantum, remainingTime)`,
admit processes that arrived during the slice, then re-enqueue the process if
unfinished or finalize it. -/
def rrStep (q : Int) (s : SimState) : RRStepRes :=
  if s.completed < s.procs.length then
    let i2 := admitFrom s.procs s.time s.i
    let ready2 := s.ready ++ List.range' s.i (i2 - s.i)
    match ready2 with
    | [] =>
      if h : i2 < s.procs.length then
        .next { s with time := (s.procs.get ⟨i2, h⟩).arrivalTime, i := i2 } none
      else
        .oob
    | j :: rest =>
      let p1 := setResponse s.time (s.procs.getD j default)
      let exec := min q p1.remainingTime
      let p2 := subRemaining exec p1
      let t2 := s.time + exec
      let procs2 := s.procs.set j p2
      let i3 := admitFrom procs2 t2 i2
      let ready3 := rest ++ List.range' i2 (i3 - i2)
      if 0 < p2.remainingTime then
        .next { procs := procs2, ready := ready3 ++ [j], time := t2, i := i3,
                completed := s.completed } (some (p1.id, s.time, t2))
      else
        .next { procs := procs2.set j (finalizeAt t2 p2), ready := ready3, time := t2, i := i3,
                completed := s.completed + 1 } (some (p1.id, s.time, t2))
  else
    .done s.procs

/-- Fuel-indexed unfolding of the SJF / Priority `while` loop. -/
def nonpreLoop (lt : Process → Process → Bool) : Nat → SimState → Except SimError (List Process)
  | 0, _ => .error .outOfFuel
  | fuel + 1, s =>
    match nonpreStep lt s with
    | .done out => .ok out
    | .oob => .error .outOfBounds
    | .next s2 => nonpreLoop lt fuel s2

/-- Fuel-indexed unfolding of the SRTF / preemptive Priority `while` loop. -/
def preLoop (lt : Process → Process → Bool) : Nat → SimState → Except SimError (List Process)
  | 0, _ => .error .outOfFuel
  | fuel + 1, s =>
    match preStep lt s with
    | .done out => .ok out
    | .oob => .error .outOfBounds
    | .next s2 => preLoop lt fuel s2

/-- Fuel-indexed unfolding of the Round-Robin `while` loop, accumulating the
ghost slice trace. -/
def rrLoop (q : Int) : Nat → SimState → List (Int × Int × Int) →
    Except SimError (List Process × List (Int × Int × Int))
  | 0, _, _ => .error .outOfFuel
  | fuel + 1, s, tr =>
    match rrStep q s with
    | .done out => .ok (out, tr)
    | .oob => .error .outOfBounds
    | .next s2 sl => rrLoop q fuel s2 (tr ++ sl.toList)

/-- Total burst time, as fuel (negative bursts count 0). -/
def burstFuel (l : List Process) : Nat := (l.map (fun p => p.burstTime.toNat)).sum

/-- Fuel sufficient for the non-preemptive loops on valid input
(each iteration completes a process or is an idle jump followed by an
admission). -/
def nonpreFuel (l : List Process) : Nat := 3 * l.length + 2

/-- Fuel sufficient for the preemptive and Round-Robin loops on valid input
(every executed slice is at least one time unit). -/
def preFuel (l : List Process) : Nat := 2 * burstFuel l + l.length + 2

/-- `FCFSScheduler::schedule`'s `for` loop over the sorted process list. -/
def fcfsLoop : Int → List Process → List Process
  | _, [] => []
  | t, p :: rest =>
    let start := if t < p.arrivalTime then p.arrivalTime else t
    let p2 := { p with
                  responseTime := start - p.arrivalTime
                  completionTime := start + p.burstTime
                  turnaroundTime := (start + p.burstTime) - p.arrivalTime
                  waitingTime := ((start + p.burstTime) - p.arrivalTime) - p.burstTime }
    p2 :: fcfsLoop (start + p.burstTime) rest

/-- `FCFSScheduler::schedule`: sort by arrival, then run every process to
completion in order. -/
def fcfsSchedule (l : List Process) : List Process :=
  fcfsLoop 0 (sortByArrival l)

/-- `SJFScheduler::schedule`. -/
def sjfSchedule (l : List Process) : Except SimError (List Process) :=
  let s := sortByArrival l
  nonpreLoop sjfCmp (nonpreFuel s) (initState s)

/-- `PriorityScheduler::schedule` (non-preemptive). -/
def prioritySchedule (l : List Process) : Except SimError (List Process) :=
  let s := sortByArrival l
  nonpreLoop priCmp (nonpreFuel s) (initState s)

/-- `SRTFScheduler::schedule`. -/
def srtfSchedule (l : List Process) : Except SimError (List Process) :=
  let s := sortByArrival l
  preLoop srtfCmp (preFuel s) (initState s)

/-- `PreemptivePriorityScheduler::schedule`. -/
def preemptivePrioritySchedule (l : List Process) : Except SimError (List Process) :=
  let s := sortByArrival l
  preLoop ppCmp (preFuel s) (initState s)

/-- `RoundRobinScheduler::schedule` with quantum `q`.  NOTE: faithful to the
source, the Round-Robin scheduler does NOT sort its process list. -/
def rrSchedule (q : Int) (l : List Process) :
    Except SimError (List Process × List (Int × Int × Int)) :=
  rrLoop q (preFuel l) (initState l) []

/-- Division of two `int`s as the C++ `static_cast<double>(a) / b`, modelled
over `ℚ`; denominator `0` (NaN in IEEE arithmetic) is `none`. -/
def divQ (a b : Int) : Option ℚ := if b = 0 then none else some ((a : ℚ) / (b : ℚ))

/-- The aggregate metrics of `Scheduler::calculateMetrics`. -/
structure Metrics where
  avgWaitingTime : Option ℚ
  avgTurnaroundTime : Option ℚ
  avgResponseTime : Option ℚ
  throughput : Option ℚ
deriving Repr, DecidableEq

/-- Maximum completion time across the set, as computed by
`calculateMetrics` (`maxCompletionTime` starts at `0`). -/
def maxCompletion (l : List Process) : Int :=
  l.foldl (fun m p => max m p.completionTime) 0

/-- `Scheduler::calculateMetrics`: totals over the process vector, then the
four divisions. -/
def calculateMetrics (procs : List Process) : Metrics :=
  let totalWaitingTime := (procs.map (fun p => p.waitingTime)).sum
  let totalTurnaroundTime := (procs.map (fun p => p.turnaroundTime)).sum
  let totalResponseTime := (procs.map (fun p => p.responseTime)).sum
  { avgWaitingTime := divQ totalWaitingTime procs.length
    avgTurnaroundTime := divQ totalTurnaroundTime procs.length
    avgResponseTime := divQ totalResponseTime procs.length
    throughput := divQ procs.length (maxCompletion procs) }

/-- A valid input set: every process was built by the constructor
(`remainingTime = burstTime`, `responseTime = -1`, output fields `0`) with
`arrivalTime ≥ 0` and `burstTime > 0`. -/
def ValidInput (l : List Process) : Prop :=
  ∀ p ∈ l, 0 ≤ p.arrivalTime ∧ 1 ≤ p.burstTime ∧ p.remainingTime = p.burstTime ∧
    p.responseTime = -1 ∧ p.completionTime = 0

instance : DecidablePred ValidInput := fun l =>
  List.decidableBAll _ l

/-- Total burst time of the set, over `Int`. -/
def totalBurstI (l : List Process) : Int := (l.map (fun p => p.burstTime)).sum

/-- The demo data set built in `main` (id, arrival, burst, priority). -/
def demoProcs : List Process :=
  [Process.init 1 0 10 3, Process.init 2 1 5 1, Process.init 3 3 8 2,
   Process.init 4 5 2 4, Process.init 5 6 4 5]

/-- Scenario C input: processes `{(1,0,4),(2,1,3)}`. -/
def scenarioC : List Process := [Process.init 1 0 4 0, Process.init 2 1 3 0]

/-- Two simultaneous arrivals with priority values 1 and 5. -/
def priorityPair : List Process := [Process.init 1 0 2 1, Process.init 2 0 2 5]

/-- Two processes supplied out of arrival order. -/
def unsortedPair : List Process := [Process.init 1 5 2 0, Process.init 2 0 2 0]

/-- A single process with a negative burst time. -/
def negBurst : List Process := [Process.init 1 0 (-1) 0]

/-- A single valid process, used to exhibit the Round-Robin infinite loop on
quantum `0`. -/
def singleProc : List Process := [Process.init 1 0 1 0]

/-- A permutation of `demoProcs` (supplied out of arrival order), used to
witness order-independence of the sorting policies. -/
def demoShuffled : List Process :=
  [Process.init 3 3 8 2, Process.init 1 0 10 3, Process.init 5 6 4 5,
   Process.init 2 1 5 1, Process.init 4 5 2 4]

/-- Claim C2, stated for one pair of inputs: the list sorted by arrival is
sorted, the two inputs sort identically, and the five sorting policies
compute identical outputs on both. -/
def SortInvariance (l2 l : List Process) : Prop :=
  (sortByArrival l).Pairwise (fun a b => a.arrivalTime ≤ b.arrivalTime) ∧
  sortByArrival l2 = sortByArrival l ∧
  fcfsSchedule l2 = fcfsSchedule l ∧
  sjfSchedule l2 = sjfSchedule l ∧
  prioritySchedule l2 = prioritySchedule l ∧
  srtfSchedule l2 = srtfSchedule l ∧
  preemptivePrioritySchedule l2 = preemptivePrioritySchedule l

/-- Invariant of the Round-Robin loop run with quantum `0` on a valid input:
some process is still uncompleted, the counting invariant holds, and every
process still has positive remaining time — so every dispatched slice is
`min(0, remainingTime) = 0` and no progress is ever made. -/
def RRZeroInv (s : SimState) : Prop :=
  s.completed < s.procs.length ∧ s.i ≤ s.procs.length ∧
  s.ready.length + s.completed = s.i ∧
  (∀ k ∈ s.ready, k < s.i) ∧
  (∀ j, j < s.procs.length → 0 < (s.procs.getD j default).remainingTime)

/-- Claim C5, stated for one input: every policy terminates (with the fuel
the scheduler functions use) and every process is completed. -/
def TerminatesAll (l : List Process) (q : Int) : Prop :=
  ((fcfsSchedule l).length = l.length ∧
    ∀ p ∈ fcfsSchedule l, p.arrivalTime + p.burstTime ≤ p.completionTime) ∧
  (∃ out, sjfSchedule l = .ok out ∧ out.length = l.length ∧
    ∀ p ∈ out, p.arrivalTime + p.burstTime ≤ p.completionTime) ∧
  (∃ out, prioritySchedule l = .ok out ∧ out.length = l.length ∧
    ∀ p ∈ out, p.arrivalTime + p.burstTime ≤ p.completionTime) ∧
  (∃ out, srtfSchedule l = .ok out ∧ out.length = l.length ∧
    ∀ p ∈ out, p.remainingTime = 0 ∧ p.arrivalTime + p.burstTime ≤ p.completionTime) ∧
  (∃ out, preemptivePrioritySchedule l = .ok out ∧ out.length = l.length ∧
    ∀ p ∈ out, p.remainingTime = 0 ∧ p.arrivalTime + p.burstTime ≤ p.completionTime) ∧
  (∃ out tr, rrSchedule q l = .ok (out, tr) ∧ out.length = l.length ∧
    ∀ p ∈ out, p.remainingTime = 0 ∧ p.arrivalTime + p.burstTime ≤ p.completionTime)

/-- Claim C6, stated for one input: the two timing identities hold for every
process of every policy's output. -/
def TimingIdentityAll (l : List Process) (q : Int) : Prop :=
  (∀ p ∈ fcfsSchedule l, p.turnaroundTime = p.completionTime - p.arrivalTime ∧
    p.waitingTime = p.turnaroundTime - p.burstTime) ∧
  (∃ out, sjfSchedule l = .ok out ∧
    ∀ p ∈ out, p.turnaroundTime = p.completionTime - p.arrivalTime ∧
      p.waitingTime = p.turnaroundTime - p.burstTime) ∧
  (∃ out, prioritySchedule l = .ok out ∧
    ∀ p ∈ out, p.turnaroundTime = p.completionTime - p.arrivalTime ∧
      p.waitingTime = p.turnaroundTime - p.burstTime) ∧
  (∃ out, srtfSchedule l = .ok out ∧
    ∀ p ∈ out, p.turnaroundTime = p.completionTime - p.arrivalTime ∧
      p.waitingTime = p.turnaroundTime - p.burstTime) ∧
  (∃ out, preemptivePrioritySchedule l = .ok out ∧
    ∀ p ∈ out, p.turnaroundTime = p.completionTime - p.arrivalTime ∧
      p.waitingTime = p.turnaroundTime - p.burstTime) ∧
  (∃ out tr, rrSchedule q l = .ok (out, tr) ∧
    ∀ p ∈ out, p.turnaroundTime = p.completionTime - p.arrivalTime ∧
      p.waitingTime = p.turnaroundTime - p.burstTime)

/-- Claim C7, stated for one input: waiting/response bounds, with
`responseTime ≤ waitingTime` for the non-preemptive policies and
`responseTime ≤ completionTime - arrivalTime` for the preemptive ones. -/
def TimingBoundsAll (l : List Process) (q : Int) : Prop :=
  (∀ p ∈ fcfsSchedule l, 0 ≤ p.waitingTime ∧ 0 ≤ p.responseTime ∧
    p.responseTime ≤ p.waitingTime) ∧
  (∃ out, sjfSchedule l = .ok out ∧
    ∀ p ∈ out, 0 ≤ p.waitingTime ∧ 0 ≤ p.responseTime ∧ p.responseTime ≤ p.waitingTime) ∧
  (∃ out, prioritySchedule l = .ok out ∧
    ∀ p ∈ out, 0 ≤ p.waitingTime ∧ 0 ≤ p.responseTime ∧ p.responseTime ≤ p.waitingTime) ∧
  (∃ out, srtfSchedule l = .ok out ∧
    ∀ p ∈ out, 0 ≤ p.waitingTime ∧ 0 ≤ p.responseTime ∧
      p.responseTime ≤ p.completionTime - p.arrivalTime) ∧
  (∃ out, preemptivePrioritySchedule l = .ok out ∧
    ∀ p ∈ out, 0 ≤ p.waitingTime ∧ 0 ≤ p.responseTime ∧
      p.responseTime ≤ p.completionTime - p.arrivalTime) ∧
  (∃ out tr, rrSchedule q l = .ok (out, tr) ∧
    ∀ p ∈ out, 0 ≤ p.waitingTime ∧ 0 ≤ p.responseTime ∧
      p.responseTime ≤ p.completionTime - p.arrivalTime)

/-- Claim C9, stated for one input: with any amount of fuel, none of the
queue-based simulations ever reaches the out-of-bounds read
`processes[i]` with `i == processes.size()`. -/
def NoOutOfBoundsAll (l : List Process) : Prop :=
  ∀ fuel,
    nonpreLoop sjfCmp fuel (initState (sortByArrival l)) ≠ .error .outOfBounds ∧
    nonpreLoop priCmp fuel (initState (sortByArrival l)) ≠ .error .outOfBounds ∧
    preLoop srtfCmp fuel (initState (sortByArrival l)) ≠ .error .outOfBounds ∧
    preLoop ppCmp fuel (initState (sortByArrival l)) ≠ .error .outOfBounds ∧
    ∀ q tr, rrLoop q fuel (initState l) tr ≠ .error .outOfBounds

/-- Claim C10, stated for one input: for every policy the throughput equals
`n / max completionTime` and lies in `(0, 1]`. -/
def ThroughputAll (l : List Process) (q : Int) : Prop :=
  ((fcfsSchedule l).length = l.length ∧
    ∃ r : ℚ, (calculateMetrics (fcfsSchedule l)).throughput = some r ∧
      r = (((fcfsSchedule l).length : ℤ) : ℚ) / ((maxCompletion (fcfsSchedule l) : ℤ) : ℚ) ∧
      0 < r ∧ r ≤ 1) ∧
  (∃ out, sjfSchedule l = .ok out ∧ out.length = l.length ∧
    ∃ r : ℚ, (calculateMetrics out).throughput = some r ∧
      r = ((out.length : ℤ) : ℚ) / ((maxCompletion out : ℤ) : ℚ) ∧ 0 < r ∧ r ≤ 1) ∧
  (∃ out, prioritySchedule l = .ok out ∧ out.length = l.length ∧
    ∃ r : ℚ, (calculateMetrics out).throughput = some r ∧
      r = ((out.length : ℤ) : ℚ) / ((maxCompletion out : ℤ) : ℚ) ∧ 0 < r ∧ r ≤ 1) ∧
  (∃ out, srtfSchedule l = .ok out ∧ out.length = l.length ∧
    ∃ r : ℚ, (calculateMetrics out).throughput = some r ∧
      r = ((out.length : ℤ) : ℚ) / ((maxCompletion out : ℤ) : ℚ) ∧ 0 < r ∧ r ≤ 1) ∧
  (∃ out, preemptivePrioritySchedule l = .ok out ∧ out.length = l.length ∧
    ∃ r : ℚ, (calculateMetrics out).throughput = some r ∧
      r = ((out.length : ℤ) : ℚ) / ((maxCompletion out : ℤ) : ℚ) ∧ 0 < r ∧ r ≤ 1) ∧
  (∃ out tr, rrSchedule q l = .ok (out, tr) ∧ out.length = l.length ∧
    ∃ r : ℚ, (calculateMetrics out).throughput = some r ∧
      r = ((out.length : ℤ) : ℚ) / ((maxCompletion out : ℤ) : ℚ) ∧ 0 < r ∧ r ≤ 1)

/-! ### Run invariants

The predicates below describe the three phases a process record moves through
during a run (not yet admitted / in the ready set / finalized), and the
invariants `InvNP` (SJF, Priority) and `InvP` (SRTF, preemptive Priority,
Round Robin) that each loop iteration preserves. -/

/-- Work accounted to a process in a non-preemptive run: its full burst once
finalized (`completionTime` has been set, hence is nonzero), else `0`. -/
def workNP (p : Process) : Int := if p.completionTime = 0 then 0 else p.burstTime

/-- Work already executed by a process in a preemptive or Round-Robin run. -/
def workP (p : Process) : Int := p.burstTime - p.remainingTime

/-- A finalized process of a non-preemptive run: the timing identities of the
finalization block, plus the derived bounds. -/
def DoneNP (p : Process) : Prop :=
  p.turnaroundTime = p.completionTime - p.arrivalTime ∧
  p.waitingTime = p.turnaroundTime - p.burstTime ∧
  p.arrivalTime + p.burstTime ≤ p.completionTime ∧
  0 ≤ p.responseTime ∧
  p.responseTime = p.waitingTime ∧
  1 ≤ p.burstTime ∧ 0 ≤ p.arrivalTime ∧ p.remainingTime = p.burstTime

/-- A finalized process of a preemptive or Round-Robin run. -/
def DoneP (p : Process) : Prop :=
  p.turnaroundTime = p.completionTime - p.arrivalTime ∧
  p.waitingTime = p.turnaroundTime - p.burstTime ∧
  p.arrivalTime + p.burstTime ≤ p.completionTime ∧
  0 ≤ p.responseTime ∧
  p.arrivalTime + p.responseTime ≤ p.completionTime ∧
  1 ≤ p.burstTime ∧ 0 ≤ p.arrivalTime ∧ p.remainingTime = 0

/-- A process sitting in the ready set of a non-preemptive run at clock `t`. -/
def ReadyNPr (t : Int) (p : Process) : Prop :=
  p.remainingTime = p.burstTime ∧ 1 ≤ p.burstTime ∧ 0 ≤ p.arrivalTime ∧
  p.arrivalTime ≤ t ∧ p.responseTime = -1 ∧ p.completionTime = 0

/-- A process sitting in the ready set of a preemptive or Round-Robin run at
clock `t`: partially executed, with `p.burstTime - p.remainingTime` units of
work already done no earlier than its arrival. -/
def ReadyPPr (t : Int) (p : Process) : Prop :=
  1 ≤ p.remainingTime ∧ p.remainingTime ≤ p.burstTime ∧
  1 ≤ p.burstTime ∧ 0 ≤ p.arrivalTime ∧
  p.arrivalTime + (p.burstTime - p.remainingTime) ≤ t ∧
  (p.responseTime = -1 ∨ (0 ≤ p.responseTime ∧ p.arrivalTime + p.responseTime ≤ t)) ∧
  p.completionTime = 0

/-- A not-yet-admitted process: still exactly as the constructor made it. -/
def FreshPr (p : Process) : Prop :=
  p.remainingTime = p.burstTime ∧ 1 ≤ p.burstTime ∧ 0 ≤ p.arrivalTime ∧
  p.responseTime = -1 ∧ p.completionTime = 0

/-- Loop invariant of the SJF / non-preemptive Priority runs. -/
structure InvNP (s : SimState) : Prop where
  hi : s.i ≤ s.procs.length
  hcount : s.ready.length + s.completed = s.i
  hmem : ∀ j ∈ s.ready, j < s.i
  hnodup : s.ready.Nodup
  hready : ∀ j ∈ s.ready, ReadyNPr s.time (s.procs.getD j default)
  hdone : ∀ j, j < s.i → j ∉ s.ready → DoneNP (s.procs.getD j default)
  hfresh : ∀ j, s.i ≤ j → j < s.procs.length → FreshPr (s.procs.getD j default)
  htime : 0 ≤ s.time
  hwork : (s.procs.map workNP).sum ≤ s.time
  hfin : s.completed = s.procs.length → totalBurstI s.procs ≤ maxCompletion s.procs

/-- Loop invariant of the SRTF / preemptive Priority / Round-Robin runs. -/
structure InvP (s : SimState) : Prop where
  hi : s.i ≤ s.procs.length
  hcount : s.ready.length + s.completed = s.i
  hmem : ∀ j ∈ s.ready, j < s.i
  hnodup : s.ready.Nodup
  hready : ∀ j ∈ s.ready, ReadyPPr s.time (s.procs.getD j default)
  hdone : ∀ j, j < s.i → j ∉ s.ready → DoneP (s.procs.getD j default)
  hfresh : ∀ j, s.i ≤ j → j < s.procs.length → FreshPr (s.procs.getD j default)
  htime : 0 ≤ s.time
  hwork : (s.procs.map workP).sum ≤ s.time
  hfin : s.completed = s.procs.length → totalBurstI s.procs ≤ maxCompletion s.procs

/-- The purely structural part of the invariants: it holds for arbitrary
process lists (no validity assumptions) and already rules out the
out-of-bounds read. -/
def CountInv (s : SimState) : Prop :=
  s.i ≤ s.procs.length ∧ s.ready.length + s.completed = s.i

/-- `1` when the next iteration will be an idle fast-forward of the clock. -/
def emptyBit (s : SimState) : Nat :=
  if s.ready = [] ∧ s.i < s.procs.length ∧
      s.time < (s.procs.getD s.i default).arrivalTime
  then 1 else 0

/-- Termination measure for the non-preemptive loops. -/
def measureNP (s : SimState) : Nat :=
  2 * (s.procs.length - s.completed) + (s.procs.length - s.i) + emptyBit s

/-- Total remaining time, as a natural number. -/
def natRemSum (l : List Process) : Nat :=
  (l.map (fun p => p.remainingTime.toNat)).sum

/-- Termination measure for the preemptive and Round-Robin loops. -/
def measureP (s : SimState) : Nat :=
  2 * natRemSum s.procs + (s.procs.length - s.i) + emptyBit s

/-! ### List helper lemmas -/

theorem listGetDSetSelf {α} {l : List α} {j : Nat} (a d : α) (h : j < l.length) :
    (l.set j a).getD j d = a := by
  rw [List.getD_eq_getElem?_getD, List.getElem?_set_self h, Option.getD_some]

theorem listGetDSetNe {α} {l : List α} {j k : Nat} (a d : α) (h : j ≠ k) :
    (l.set j a).getD k d = l.getD k d := by
  rw [List.getD_eq_getElem?_getD, List.getElem?_set_ne h, ← List.getD_eq_getElem?_getD]

theorem listGetDMem {α} {l : List α} {j : Nat} (d : α) (h : j < l.length) :
    l.getD j d ∈ l := by
  rw [List.getD_eq_getElem l d h]
  exact List.getElem_mem h

theorem listSetGetDSelf {α} {l : List α} {j : Nat} (d : α) (h : j < l.length) :
    l.set j (l.getD j d) = l := by
  induction l generalizing j with
  | nil => simp at h
  | cons x xs ih =>
    cases j with
    | zero => rfl
    | succ n =>
      have hn : n < xs.length := by simpa using h
      simp only [List.getD_cons_succ, List.set_cons_succ]
      rw [ih hn]

theorem forallMemOfForallGetD {P : Process → Prop} {l : List Process}
    (h : ∀ j, j < l.length → P (l.getD j default)) : ∀ p ∈ l, P p := by
  intro p hp
  obtain ⟨n, hn⟩ := List.mem_iff_get.mp hp
  have hx := h n.val n.isLt
  rw [List.getD_eq_getElem _ _ n.isLt, ← List.get_eq_getElem, hn] at hx
  exact hx

theorem sumMapSetInt (f : Process → Int) (l : List Process) (j : Nat) (a : Process)
    (h : j < l.length) :
    ((l.set j a).map f).sum + f (l.getD j default) = (l.map f).sum + f a := by
  induction l generalizing j with
  | nil => simp at h
  | cons x xs ih =>
    cases j with
    | zero => simp [List.set]; omega
    | succ n =>
      have hn : n < xs.length := by simpa using h
      simp only [List.set, List.map_cons, List.sum_cons, List.getD_cons_succ]
      have := ih n hn
      omega

theorem sumMapSetNat (f : Process → Nat) (l : List Process) (j : Nat) (a : Process)
    (h : j < l.length) :
    ((l.set j a).map f).sum + f (l.getD j default) = (l.map f).sum + f a := by
  induction l generalizing j with
  | nil => simp at h
  | cons x xs ih =>
    cases j with
    | zero => simp [List.set]; omega
    | succ n =>
      have hn : n < xs.length := by simpa using h
      simp only [List.set, List.map_cons, List.sum_cons, List.getD_cons_succ]
      have := ih n hn
      omega

theorem sumMapCongr (f g : Process → Int) (l : List Process) (h : ∀ p ∈ l, f p = g p) :
    (l.map f).sum = (l.map g).sum := by
  rw [List.map_congr_left h]

theorem leFoldlMaxCompletion (l : List Process) (a : Int) :
    a ≤ l.foldl (fun m p => max m p.completionTime) a := by
  induction l generalizing a with
  | nil => exact le_rfl
  | cons x xs ih =>
    exact le_trans (le_max_left a x.completionTime) (ih _)

theorem memLeFoldlMaxCompletion {p : Process} {l : List Process} (hp : p ∈ l) (a : Int) :
    p.completionTime ≤ l.foldl (fun m q => max m q.completionTime) a := by
  induction l generalizing a with
  | nil => cases hp
  | cons x xs ih =>
    rcases List.mem_cons.mp hp with hpx | hpxs
    · subst hpx
      exact le_trans (le_max_right a p.completionTime) (leFoldlMaxCompletion xs _)
    · exact ih hpxs _

theorem completionLeMaxCompletion {p : Process} {l : List Process} (hp : p ∈ l) :
    p.completionTime ≤ maxCompletion l :=
  memLeFoldlMaxCompletion hp 0

theorem maxCompletionNonneg (l : List Process) : 0 ≤ maxCompletion l :=
  leFoldlMaxCompletion l 0

theorem lengthLeTotalBurstI {l : List Process} (h : ∀ p ∈ l, 1 ≤ p.burstTime) :
    (l.length : Int) ≤ totalBurstI l := by
  induction l with
  | nil => simp [totalBurstI]
  | cons x xs ih =>
    have hx := h x (List.mem_cons_self x xs)
    have hxs := ih (fun p hp => h p (List.mem_cons_of_mem x hp))
    simp only [totalBurstI, List.map_cons, List.sum_cons, List.length_cons] at hxs ⊢
    push_cast
    omega

/-! ### admitFrom lemmas -/

theorem admitFromFuel_spec (procs : List Process) (t : Int) :
    ∀ fuel i, procs.length ≤ fuel + i →
      i ≤ admitFromFuel procs t fuel i ∧
      (i ≤ procs.length → admitFromFuel procs t fuel i ≤ procs.length) ∧
      (∀ j, i ≤ j → j < admitFromFuel procs t fuel i →
        (procs.getD j default).arrivalTime ≤ t) ∧
      (admitFromFuel procs t fuel i < procs.length →
        t < (procs.getD (admitFromFuel procs t fuel i) default).arrivalTime) := by
  intro fuel
  induction fuel with
  | zero =>
    intro i hfi
    simp only [admitFromFuel]
    refine ⟨le_rfl, fun h => h, by omega, ?_⟩
    intro h
    exact absurd h (by omega)
  | succ n ih =>
    intro i hfi
    simp only [admitFromFuel]
    by_cases h : i < procs.length
    · rw [dif_pos h]
      by_cases ha : (procs.get ⟨i, h⟩).arrivalTime ≤ t
      · rw [if_pos ha]
        obtain ⟨ih1, ih2, ih3, ih4⟩ := ih (i + 1) (by omega)
        refine ⟨by omega, fun _ => ih2 (by omega), ?_, ih4⟩
        intro j hij hj
        by_cases hji : i = j
        · subst hji
          rw [List.getD_eq_getElem _ _ h]
          exact ha
        · exact ih3 j (by omega) hj
      · rw [if_neg ha]
        refine ⟨le_rfl, fun _ => h.le, ?_, ?_⟩
        · intro j hij hj; omega
        · intro _
          rw [List.getD_eq_getElem _ _ h]
          simp only [List.get_eq_getElem] at ha
          omega
    · rw [dif_neg h]
      exact ⟨le_rfl, by omega, by omega, by omega⟩

theorem admitFrom_spec (procs : List Process) (t : Int) (i : Nat) :
    i ≤ admitFrom procs t i ∧
    (i ≤ procs.length → admitFrom procs t i ≤ procs.length) ∧
    (∀ j, i ≤ j → j < admitFrom procs t i → (procs.getD j default).arrivalTime ≤ t) ∧
    (admitFrom procs t i < procs.length →
      t < (procs.getD (admitFrom procs t i) default).arrivalTime) := by
  simp only [admitFrom]
  exact admitFromFuel_spec procs t (procs.length - i) i (by omega)

theorem admitFrom_ge (procs : List Process) (t : Int) (i : Nat) :
    i ≤ admitFrom procs t i :=
  (admitFrom_spec procs t i).1

theorem admitFrom_le (procs : List Process) (t : Int) {i : Nat} (h : i ≤ procs.length) :
    admitFrom procs t i ≤ procs.length :=
  (admitFrom_spec procs t i).2.1 h

theorem admitFrom_arrived (procs : List Process) (t : Int) (i : Nat) {j : Nat}
    (hij : i ≤ j) (hj : j < admitFrom procs t i) :
    (procs.getD j default).arrivalTime ≤ t :=
  (admitFrom_spec procs t i).2.2.1 j hij hj

/-- If the admission loop stops strictly inside the list, the process it
stopped at has not yet arrived. -/
theorem admitFrom_stop (procs : List Process) (t : Int) (i : Nat)
    (h : admitFrom procs t i < procs.length) :
    t < (procs.getD (admitFrom procs t i) default).arrivalTime :=
  (admitFrom_spec procs t i).2.2.2 h

/-! ### selectMax lemmas -/

theorem selectMax_perm (lt : α → α → Bool) (x : α) (l : List α) :
    List.Perm (x :: l) ((selectMax lt x l).1 :: (selectMax lt x l).2) := by
  induction l generalizing x with
  | nil => exact List.Perm.refl _
  | cons y ys ih =>
    rw [selectMax]
    by_cases h : lt x y = true
    · rw [if_pos h]
      exact List.Perm.trans (List.Perm.cons x (ih y)) (List.Perm.swap _ x _)
    · rw [if_neg h]
      refine List.Perm.trans (List.Perm.swap y x ys) ?_
      exact List.Perm.trans (List.Perm.cons y (ih x)) (List.Perm.swap _ y _)

/-- The element returned by `selectMax` is maximal: nothing in the original
queue contents is strictly greater.  The hypotheses are the strict-weak-order
facts satisfied by every comparator of the program. -/
theorem selectMax_max (lt : α → α → Bool)
    (hirr : ∀ a, lt a a = false)
    (htr1 : ∀ a b c, lt a b = true → lt c b = false → lt c a = false)
    (htr2 : ∀ a b c, lt a b = false → lt c a = false → lt c b = false)
    (x : α) (l : List α) :
    ∀ y ∈ x :: l, lt (selectMax lt x l).1 y = false := by
  induction l generalizing x with
  | nil =>
    intro y hy
    rcases List.mem_cons.mp hy with hyx | hyn
    · subst hyx; exact hirr y
    · cases hyn
  | cons z zs ih =>
    rw [selectMax]
    by_cases h : lt x z = true
    · rw [if_pos h]
      intro y hy
      rcases List.mem_cons.mp hy with hyx | hyn
      · subst hyx
        exact htr1 y z _ h (ih z z (List.mem_cons_self z zs))
      · exact ih z y hyn
    · rw [if_neg h]
      have hxz : lt x z = false := by
        cases hb : lt x z
        · rfl
        · exact absurd hb h
      intro y hy
      rcases List.mem_cons.mp hy with hyx | hyn
      · subst hyx
        exact ih y y (List.mem_cons_self y zs)
      · rcases List.mem_cons.mp hyn with hyz | hyzs
        · subst hyz
          exact htr2 x y _ hxz (ih x x (List.mem_cons_self x zs))
        · exact ih x y (List.mem_cons_of_mem x hyzs)

/-- Specialisation to the non-preemptive Priority comparator: the popped
index points to a process whose `priority` value is at least every ready
process's `priority` value. -/
theorem selectMax_priCmp_ge (procs : List Process) (x : Nat) (l : List Nat) :
    ∀ y ∈ x :: l,
      (procs.getD y default).priority ≤
        (procs.getD (selectMax (readyCmp procs priCmp) x l).1 default).priority := by
  intro y hy
  have h := selectMax_max (readyCmp procs priCmp)
    (fun a => by simp [readyCmp, priCmp])
    (fun a b c hab hcb => by
      simp only [readyCmp, priCmp, decide_eq_true_eq, decide_eq_false_iff_not] at hab hcb ⊢
      omega)
    (fun a b c hab hca => by
      simp only [readyCmp, priCmp, decide_eq_true_eq, decide_eq_false_iff_not] at hab hca ⊢
      omega)
    x l y hy
  simp only [readyCmp, priCmp, decide_eq_false_iff_not] at h
  omega

/-! ### Sorting lemmas -/

theorem insertArr_perm (p : Process) (l : List Process) :
    List.Perm (insertArr p l) (p :: l) := by
  induction l with
  | nil => exact List.Perm.refl _
  | cons q qs ih =>
    rw [insertArr]
    by_cases h : p.arrivalTime ≤ q.arrivalTime
    · rw [if_pos h]
    · rw [if_neg h]
      exact List.Perm.trans (List.Perm.cons q ih) (List.Perm.swap p q qs)

theorem sortByArrival_perm (l : List Process) : List.Perm (sortByArrival l) l := by
  induction l with
  | nil => exact List.Perm.refl _
  | cons p ps ih =>
    exact List.Perm.trans (insertArr_perm p _) (List.Perm.cons p ih)

theorem insertArr_sorted (p : Process) {l : List Process}
    (h : l.Pairwise (fun a b => a.arrivalTime ≤ b.arrivalTime)) :
    (insertArr p l).Pairwise (fun a b => a.arrivalTime ≤ b.arrivalTime) := by
  induction l with
  | nil => simp [insertArr]
  | cons q qs ih =>
    rcases List.pairwise_cons.mp h with ⟨hq, hqs⟩
    rw [insertArr]
    by_cases hle : p.arrivalTime ≤ q.arrivalTime
    · rw [if_pos hle]
      refine List.pairwise_cons.mpr ⟨?_, h⟩
      intro b hb
      rcases List.mem_cons.mp hb with hbq | hbqs
      · subst hbq; exact hle
      · exact le_trans hle (hq b hbqs)
    · rw [if_neg hle]
      refine List.pairwise_cons.mpr ⟨?_, ih hqs⟩
      intro b hb
      have hb2 := (insertArr_perm p qs).mem_iff.mp hb
      rcases List.mem_cons.mp hb2 with hbp | hbqs
      · subst hbp; omega
      · exact hq b hbqs

theorem sortByArrival_sorted (l : List Process) :
    (sortByArrival l).Pairwise (fun a b => a.arrivalTime ≤ b.arrivalTime) := by
  induction l with
  | nil => exact List.Pairwise.nil
  | cons p ps ih => exact insertArr_sorted p ih

theorem sortByArrival_eq_of_sorted {l : List Process}
    (h : l.Pairwise (fun a b => a.arrivalTime ≤ b.arrivalTime)) :
    sortByArrival l = l := by
  induction l with
  | nil => rfl
  | cons p ps ih =>
    rcases List.pairwise_cons.mp h with ⟨hp, hps⟩
    rw [sortByArrival, ih hps]
    cases ps with
    | nil => rfl
    | cons q qs => rw [insertArr, if_pos (hp q (List.mem_cons_self q qs))]

theorem sortByArrival_idem (l : List Process) :
    sortByArrival (sortByArrival l) = sortByArrival l :=
  sortByArrival_eq_of_sorted (sortByArrival_sorted l)

theorem validInput_sortByArrival {l : List Process} (h : ValidInput l) :
    ValidInput (sortByArrival l) :=
  fun p hp => h p ((sortByArrival_perm l).subset hp)

/-! ### Structural lemmas: the out-of-bounds branch is unreachable -/

theorem nonpreStep_count (lt : Process → Process → Bool) (s : SimState) (h : CountInv s) :
    nonpreStep lt s ≠ .oob ∧ ∀ s2, nonpreStep lt s = .next s2 → CountInv s2 := by
  obtain ⟨hi, hcount⟩ := h
  have hge := admitFrom_ge s.procs s.time s.i
  have hle := admitFrom_le s.procs s.time hi
  by_cases hc : s.completed < s.procs.length
  · cases hr : s.ready ++ List.range' s.i (admitFrom s.procs s.time s.i - s.i) with
    | nil =>
      have hlen := congrArg List.length hr
      simp only [List.length_append, List.length_range' s.i 1, List.length_nil] at hlen
      have hi2 : admitFrom s.procs s.time s.i < s.procs.length := by omega
      have hstep : nonpreStep lt s =
          .next { s with time := (s.procs.get ⟨admitFrom s.procs s.time s.i, hi2⟩).arrivalTime,
                         i := admitFrom s.procs s.time s.i } := by
        simp only [nonpreStep, hc, if_true, hr, dif_pos hi2]
      rw [hstep]
      refine ⟨by simp, ?_⟩
      intro s2 hs2
      cases hs2
      exact ⟨by simpa using hle, by simpa using by omega⟩
    | cons j rest =>
      have hlen := congrArg List.length hr
      simp only [List.length_append, List.length_range' s.i 1, List.length_cons] at hlen
      have hperm := selectMax_perm (readyCmp s.procs lt) j rest
      have hpl := hperm.length_eq
      simp only [List.length_cons] at hpl
      constructor
      · simp only [nonpreStep, hc, if_true, hr]
        simp
      · intro s2 hs2
        simp only [nonpreStep, hc, if_true, hr] at hs2
        cases hs2
        constructor
        · simpa [List.length_set] using hle
        · simp only [List.length_set]
          omega
  · have hstep : nonpreStep lt s = .done s.procs := by
      simp only [nonpreStep, hc, if_false]
    rw [hstep]
    exact ⟨by simp, fun s2 hs2 => by cases hs2⟩

theorem preStep_count (lt : Process → Process → Bool) (s : SimState) (h : CountInv s) :
    preStep lt s ≠ .oob ∧ ∀ s2, preStep lt s = .next s2 → CountInv s2 := by
  obtain ⟨hi, hcount⟩ := h
  have hge := admitFrom_ge s.procs s.time s.i
  have hle := admitFrom_le s.procs s.time hi
  by_cases hc : s.completed < s.procs.length
  · cases hr : s.ready ++ List.range' s.i (admitFrom s.procs s.time s.i - s.i) with
    | nil =>
      have hlen := congrArg List.length hr
      simp only [List.length_append, List.length_range' s.i 1, List.length_nil] at hlen
      have hi2 : admitFrom s.procs s.time s.i < s.procs.length := by omega
      constructor
      · simp only [preStep, hc, if_true, hr, dif_pos hi2]
        simp
      · intro s2 hs2
        simp only [preStep, hc, if_true, hr, dif_pos hi2] at hs2
        cases hs2
        exact ⟨by simpa using hle, by simpa using by omega⟩
    | cons j rest =>
      have hlen := congrArg List.length hr
      simp only [List.length_append, List.length_range' s.i 1, List.length_cons] at hlen
      have hperm := selectMax_perm (readyCmp s.procs lt) j rest
      have hpl := hperm.length_eq
      simp only [List.length_cons] at hpl
      constructor
      · simp only [preStep, hc, if_true, hr]
        split <;> split <;> simp
      · intro s2 hs2
        simp only [preStep, hc, if_true, hr] at hs2
        split at hs2 <;> split at hs2
        all_goals
          cases hs2
          constructor
          · simpa [List.length_set] using hle
          · simp only [List.length_set, List.length_append, List.length_cons, List.length_nil]
            omega
  · constructor
    · simp only [preStep, hc, if_false]
      simp
    · intro s2 hs2
      simp only [preStep, hc, if_false] at hs2
      cases hs2

/-- Arithmetic core of the Round-Robin count preservation: the second
admission can only move `i` forward. -/
theorem rrCountArith (ps : List Process) (t2 : Int) (i2 restlen c : Nat)
    (h1 : restlen + 1 + c = i2) (h2 : i2 ≤ ps.length) :
    (restlen + (admitFrom ps t2 i2 - i2) + 1 + c = admitFrom ps t2 i2 ∧
      restlen + (admitFrom ps t2 i2 - i2) + (c + 1) = admitFrom ps t2 i2) ∧
    admitFrom ps t2 i2 ≤ ps.length := by
  have hg := admitFrom_ge ps t2 i2
  have hl := admitFrom_le ps t2 h2
  omega

theorem rrStep_count (q : Int) (s : SimState) (h : CountInv s) :
    rrStep q s ≠ .oob ∧ ∀ s2 sl, rrStep q s = .next s2 sl → CountInv s2 := by
  obtain ⟨hi, hcount⟩ := h
  have hge := admitFrom_ge s.procs s.time s.i
  have hle := admitFrom_le s.procs s.time hi
  by_cases hc : s.completed < s.procs.length
  · cases hr : s.ready ++ List.range' s.i (admitFrom s.procs s.time s.i - s.i) with
    | nil =>
      have hlen := congrArg List.length hr
      simp only [List.length_append, List.length_range' s.i 1, List.length_nil] at hlen
      have hi2 : admitFrom s.procs s.time s.i < s.procs.length := by omega
      constructor
      · simp only [rrStep, hc, if_true, hr, dif_pos hi2]
        simp
      · intro s2 sl hs2
        simp only [rrStep, hc, if_true, hr, dif_pos hi2] at hs2
        cases hs2
        exact ⟨by simpa using hle, by simpa using by omega⟩
    | cons j rest =>
      have hlen := congrArg List.length hr
      simp only [List.length_append, List.length_range' s.i 1, List.length_cons] at hlen
      constructor
      · simp only [rrStep, hc, if_true, hr]
        split
        · simp
        · simp
      · intro s2 sl hs2
        simp only [rrStep, hc, if_true, hr] at hs2
        set p1 := setResponse s.time (s.procs.getD j default) with hp1
        set p2 : Process := subRemaining (min q p1.remainingTime) p1 with hp2
        have harith := rrCountArith (s.procs.set j p2) (s.time + min q p1.remainingTime)
          (admitFrom s.procs s.time s.i) rest.length s.completed
          (by omega) (by simpa [List.length_set] using hle)
        split at hs2
        · cases hs2
          constructor
          · simpa [List.length_set] using harith.2
          · simp only [List.length_set, List.length_append, List.length_cons,
              List.length_range' _ 1, List.length_nil]
            omega
        · cases hs2
          constructor
          · simpa [List.length_set] using harith.2
          · simp only [List.length_set, List.length_append, List.length_cons,
              List.length_range' _ 1, List.length_nil]
            omega
  · constructor
    · simp only [rrStep, hc, if_false]
      simp
    · intro s2 sl hs2
      simp only [rrStep, hc, if_false] at hs2
      cases hs2

theorem nonpreLoop_no_oob (lt : Process → Process → Bool) :
    ∀ fuel s, CountInv s → nonpreLoop lt fuel s ≠ .error .outOfBounds := by
  intro fuel
  induction fuel with
  | zero => intro s _ hbad; simp [nonpreLoop] at hbad
  | succ n ih =>
    intro s h
    obtain ⟨hnoob, hnext⟩ := nonpreStep_count lt s h
    cases hstep : nonpreStep lt s with
    | done out => simp [nonpreLoop, hstep]
    | oob => exact absurd hstep hnoob
    | next s2 => simpa [nonpreLoop, hstep] using ih s2 (hnext s2 hstep)

theorem preLoop_no_oob (lt : Process → Process → Bool) :
    ∀ fuel s, CountInv s → preLoop lt fuel s ≠ .error .outOfBounds := by
  intro fuel
  induction fuel with
  | zero => intro s _ hbad; simp [preLoop] at hbad
  | succ n ih =>
    intro s h
    obtain ⟨hnoob, hnext⟩ := preStep_count lt s h
    cases hstep : preStep lt s with
    | done out => simp [preLoop, hstep]
    | oob => exact absurd hstep hnoob
    | next s2 => simpa [preLoop, hstep] using ih s2 (hnext s2 hstep)

theorem rrLoop_no_oob (q : Int) :
    ∀ fuel s tr, CountInv s → rrLoop q fuel s tr ≠ .error .outOfBounds := by
  intro fuel
  induction fuel with
  | zero => intro s tr _ hbad; simp [rrLoop] at hbad
  | succ n ih =>
    intro s tr h
    obtain ⟨hnoob, hnext⟩ := rrStep_count q s h
    cases hstep : rrStep q s with
    | done out => simp [rrLoop, hstep]
    | oob => exact absurd hstep hnoob
    | next s2 sl => simpa [rrLoop, hstep] using ih s2 (tr ++ sl.toList) (hnext s2 sl hstep)

theorem countInv_initState (l : List Process) : CountInv (initState l) := by
  constructor <;> simp [initState]

/-! ### Field-projection lemmas for the shared statement blocks -/

@[simp] theorem setResponse_id (t : Int) (p : Process) : (setResponse t p).id = p.id := by
  rw [setResponse]; split <;> rfl

@[simp] theorem setResponse_arrivalTime (t : Int) (p : Process) :
    (setResponse t p).arrivalTime = p.arrivalTime := by
  rw [setResponse]; split <;> rfl

@[simp] theorem setResponse_burstTime (t : Int) (p : Process) :
    (setResponse t p).burstTime = p.burstTime := by
  rw [setResponse]; split <;> rfl

@[simp] theorem setResponse_remainingTime (t : Int) (p : Process) :
    (setResponse t p).remainingTime = p.remainingTime := by
  rw [setResponse]; split <;> rfl

@[simp] theorem setResponse_completionTime (t : Int) (p : Process) :
    (setResponse t p).completionTime = p.completionTime := by
  rw [setResponse]; split <;> rfl

@[simp] theorem setResponse_turnaroundTime (t : Int) (p : Process) :
    (setResponse t p).turnaroundTime = p.turnaroundTime := by
  rw [setResponse]; split <;> rfl

@[simp] theorem setResponse_waitingTime (t : Int) (p : Process) :
    (setResponse t p).waitingTime = p.waitingTime := by
  rw [setResponse]; split <;> rfl

@[simp] theorem setResponse_priority (t : Int) (p : Process) :
    (setResponse t p).priority = p.priority := by
  rw [setResponse]; split <;> rfl

theorem setResponse_responseTime_unset {p : Process} (t : Int) (h : p.responseTime = -1) :
    (setResponse t p).responseTime = t - p.arrivalTime := by
  rw [setResponse, if_pos h]

theorem setResponse_responseTime_set {p : Process} (t : Int) (h : ¬p.responseTime = -1) :
    (setResponse t p).responseTime = p.responseTime := by
  rw [setResponse, if_neg h]

@[simp] theorem subRemaining_id (e : Int) (p : Process) : (subRemaining e p).id = p.id := rfl

@[simp] theorem subRemaining_arrivalTime (e : Int) (p : Process) :
    (subRemaining e p).arrivalTime = p.arrivalTime := rfl

@[simp] theorem subRemaining_burstTime (e : Int) (p : Process) :
    (subRemaining e p).burstTime = p.burstTime := rfl

@[simp] theorem subRemaining_remainingTime (e : Int) (p : Process) :
    (subRemaining e p).remainingTime = p.remainingTime - e := rfl

@[simp] theorem subRemaining_completionTime (e : Int) (p : Process) :
    (subRemaining e p).completionTime = p.completionTime := rfl

@[simp] theorem subRemaining_turnaroundTime (e : Int) (p : Process) :
    (subRemaining e p).turnaroundTime = p.turnaroundTime := rfl

@[simp] theorem subRemaining_waitingTime (e : Int) (p : Process) :
    (subRemaining e p).waitingTime = p.waitingTime := rfl

@[simp] theorem subRemaining_responseTime (e : Int) (p : Process) :
    (subRemaining e p).responseTime = p.responseTime := rfl

@[simp] theorem subRemaining_priority (e : Int) (p : Process) :
    (subRemaining e p).priority = p.priority := rfl

@[simp] theorem finalizeAt_id (t : Int) (p : Process) : (finalizeAt t p).id = p.id := rfl

@[simp] theorem finalizeAt_arrivalTime (t : Int) (p : Process) :
    (finalizeAt t p).arrivalTime = p.arrivalTime := rfl

@[simp] theorem finalizeAt_burstTime (t : Int) (p : Process) :
    (finalizeAt t p).burstTime = p.burstTime := rfl

@[simp] theorem finalizeAt_remainingTime (t : Int) (p : Process) :
    (finalizeAt t p).remainingTime = p.remainingTime := rfl

@[simp] theorem finalizeAt_completionTime (t : Int) (p : Process) :
    (finalizeAt t p).completionTime = t := rfl

@[simp] theorem finalizeAt_turnaroundTime (t : Int) (p : Process) :
    (finalizeAt t p).turnaroundTime = t - p.arrivalTime := rfl

@[simp] theorem finalizeAt_waitingTime (t : Int) (p : Process) :
    (finalizeAt t p).waitingTime = (t - p.arrivalTime) - p.burstTime := rfl

@[simp] theorem finalizeAt_responseTime (t : Int) (p : Process) :
    (finalizeAt t p).responseTime = p.responseTime := rfl

@[simp] theorem finalizeAt_priority (t : Int) (p : Process) :
    (finalizeAt t p).priority = p.priority := rfl

theorem readyNPr_mono {t t2 : Int} (h : t ≤ t2) {p : Process} (hp : ReadyNPr t p) :
    ReadyNPr t2 p := by
  rcases hp with ⟨h1, h2, h3, h4, h5, h6⟩
  exact ⟨h1, h2, h3, by omega, h5, h6⟩

theorem readyPPr_mono {t t2 : Int} (h : t ≤ t2) {p : Process} (hp : ReadyPPr t p) :
    ReadyPPr t2 p := by
  rcases hp with ⟨h1, h2, h3, h4, h5, h6, h7⟩
  refine ⟨h1, h2, h3, h4, by omega, ?_, h7⟩
  rcases h6 with h6 | ⟨h6a, h6b⟩
  · exact Or.inl h6
  · exact Or.inr ⟨h6a, by omega⟩

theorem emptyBit_le_one (s : SimState) : emptyBit s ≤ 1 := by
  rw [emptyBit]; split <;> omega

/-! ### Admission facts shared by the invariant proofs -/

theorem ready2_facts (s : SimState) (_hi : s.i ≤ s.procs.length)
    (hmem : ∀ j ∈ s.ready, j < s.i) (hnodup : s.ready.Nodup) :
    (∀ k ∈ s.ready ++ List.range' s.i (admitFrom s.procs s.time s.i - s.i),
      k < admitFrom s.procs s.time s.i) ∧
    (s.ready ++ List.range' s.i (admitFrom s.procs s.time s.i - s.i)).Nodup := by
  have hge := admitFrom_ge s.procs s.time s.i
  constructor
  · intro k hk
    rcases List.mem_append.mp hk with hk | hk
    · exact lt_of_lt_of_le (hmem k hk) hge
    · rcases List.mem_range'_1.mp hk with ⟨h1, h2⟩
      omega
  · refine List.Nodup.append hnodup (List.nodup_range' _ _) ?_
    intro k hk1 hk2
    rcases List.mem_range'_1.mp hk2 with ⟨h1, _⟩
    exact absurd (hmem k hk1) (by omega)

theorem ready2_readyNPr (s : SimState) (h : InvNP s) :
    ∀ k ∈ s.ready ++ List.range' s.i (admitFrom s.procs s.time s.i - s.i),
      ReadyNPr s.time (s.procs.getD k default) := by
  intro k hk
  rcases List.mem_append.mp hk with hk | hk
  · exact h.hready k hk
  · rcases List.mem_range'_1.mp hk with ⟨h1, h2⟩
    have hk2 : k < admitFrom s.procs s.time s.i := by omega
    have hkl : k < s.procs.length := lt_of_lt_of_le hk2 (admitFrom_le _ _ h.hi)
    have harr := admitFrom_arrived s.procs s.time s.i h1 hk2
    rcases h.hfresh k h1 hkl with ⟨f1, f2, f3, f4, f5⟩
    exact ⟨f1, f2, f3, harr, f4, f5⟩

theorem ready2_readyPPr (s : SimState) (h : InvP s) :
    ∀ k ∈ s.ready ++ List.range' s.i (admitFrom s.procs s.time s.i - s.i),
      ReadyPPr s.time (s.procs.getD k default) := by
  intro k hk
  rcases List.mem_append.mp hk with hk | hk
  · exact h.hready k hk
  · rcases List.mem_range'_1.mp hk with ⟨h1, h2⟩
    have hk2 : k < admitFrom s.procs s.time s.i := by omega
    have hkl : k < s.procs.length := lt_of_lt_of_le hk2 (admitFrom_le _ _ h.hi)
    have harr := admitFrom_arrived s.procs s.time s.i h1 hk2
    rcases h.hfresh k h1 hkl with ⟨f1, f2, f3, f4, f5⟩
    exact ⟨by omega, by omega, f2, f3, by omega, Or.inl f4, f5⟩

/-- Constructor for `InvNP` stated over plain components (avoids record
projections in subgoals). -/
theorem invNP_mk {procs : List Process} {ready : List Nat} {time : Int} {i completed : Nat}
    (hi : i ≤ procs.length)
    (hcount : ready.length + completed = i)
    (hmem : ∀ j ∈ ready, j < i)
    (hnodup : ready.Nodup)
    (hready : ∀ j ∈ ready, ReadyNPr time (procs.getD j default))
    (hdone : ∀ j, j < i → j ∉ ready → DoneNP (procs.getD j default))
    (hfresh : ∀ j, i ≤ j → j < procs.length → FreshPr (procs.getD j default))
    (htime : 0 ≤ time)
    (hwork : (procs.map workNP).sum ≤ time)
    (hfin : completed = procs.length → totalBurstI procs ≤ maxCompletion procs) :
    InvNP { procs := procs, ready := ready, time := time, i := i, completed := completed } :=
  ⟨hi, hcount, hmem, hnodup, hready, hdone, hfresh, htime, hwork, hfin⟩

/-- Constructor for `InvP` stated over plain components. -/
theorem invP_mk {procs : List Process} {ready : List Nat} {time : Int} {i completed : Nat}
    (hi : i ≤ procs.length)
    (hcount : ready.length + completed = i)
    (hmem : ∀ j ∈ ready, j < i)
    (hnodup : ready.Nodup)
    (hready : ∀ j ∈ ready, ReadyPPr time (procs.getD j default))
    (hdone : ∀ j, j < i → j ∉ ready → DoneP (procs.getD j default))
    (hfresh : ∀ j, i ≤ j → j < procs.length → FreshPr (procs.getD j default))
    (htime : 0 ≤ time)
    (hwork : (procs.map workP).sum ≤ time)
    (hfin : completed = procs.length → totalBurstI procs ≤ maxCompletion procs) :
    InvP { procs := procs, ready := ready, time := time, i := i, completed := completed } :=
  ⟨hi, hcount, hmem, hnodup, hready, hdone, hfresh, htime, hwork, hfin⟩

/-- `measureNP` on an explicit state literal. -/
theorem measureNP_lit (procs : List Process) (ready : List Nat) (time : Int)
    (i completed : Nat) :
    measureNP { procs := procs, ready := ready, time := time, i := i, completed := completed }
      = 2 * (procs.length - completed) + (procs.length - i)
        + emptyBit { procs := procs, ready := ready, time := time, i := i,
                     completed := completed } := rfl

/-- `measureP` on an explicit state literal. -/
theorem measureP_lit (procs : List Process) (ready : List Nat) (time : Int)
    (i completed : Nat) :
    measureP { procs := procs, ready := ready, time := time, i := i, completed := completed }
      = 2 * natRemSum procs + (procs.length - i)
        + emptyBit { procs := procs, ready := ready, time := time, i := i,
                     completed := completed } := rfl

/-- One iteration of the SJF / Priority loop, from an invariant state: it
either returns the process vector with everything completed, or makes a
strictly measure-decreasing invariant-preserving transition. -/
theorem nonpreStep_spec (lt : Process → Process → Bool) (s : SimState) (h : InvNP s) :
    (nonpreStep lt s = .done s.procs ∧ s.completed = s.procs.length) ∨
    (∃ s2, nonpreStep lt s = .next s2 ∧ InvNP s2 ∧ measureNP s2 < measureNP s ∧
      s2.procs.length = s.procs.length) := by
  have hge := admitFrom_ge s.procs s.time s.i
  have hle := admitFrom_le s.procs s.time h.hi
  have hcnt := h.hcount
  have hiLen := h.hi
  by_cases hc : s.completed < s.procs.length
  · right
    obtain ⟨hmem2, hnodup2⟩ := ready2_facts s h.hi h.hmem h.hnodup
    have hrdy2 := ready2_readyNPr s h
    cases hr : s.ready ++ List.range' s.i (admitFrom s.procs s.time s.i - s.i) with
    | nil =>
      have hlen := congrArg List.length hr
      simp only [List.length_append, List.length_range' s.i 1, List.length_nil] at hlen
      have hrnil : s.ready = [] := List.eq_nil_of_length_eq_zero (by omega)
      have hrlen0 : s.ready.length = 0 := by rw [hrnil]; rfl
      have hii : admitFrom s.procs s.time s.i = s.i := by omega
      have hi2lt : admitFrom s.procs s.time s.i < s.procs.length := by omega
      have hstop := admitFrom_stop s.procs s.time s.i hi2lt
      have hfr := h.hfresh (admitFrom s.procs s.time s.i) (by omega) hi2lt
      have hgetd : (s.procs.get ⟨admitFrom s.procs s.time s.i, hi2lt⟩).arrivalTime
          = (s.procs.getD (admitFrom s.procs s.time s.i) default).arrivalTime := by
        rw [List.getD_eq_getElem _ _ hi2lt, List.get_eq_getElem]
      refine ⟨{ s with time := (s.procs.get ⟨admitFrom s.procs s.time s.i, hi2lt⟩).arrivalTime,
                       i := admitFrom s.procs s.time s.i }, ?_, ?_, ?_, rfl⟩
      · simp only [nonpreStep, hc, if_true, hr, dif_pos hi2lt]
      · refine invNP_mk hle (by omega) ?_ h.hnodup ?_ ?_ ?_ ?_ ?_ ?_
        · intro k hk
          exact lt_of_lt_of_le (h.hmem k hk) hge
        · intro k hk
          rw [hrnil] at hk
          cases hk
        · intro k hk hnk
          exact h.hdone k (by omega) hnk
        · intro k hk1 hk2
          exact h.hfresh k (by omega) hk2
        · rw [hgetd]
          exact hfr.2.2.1
        · rw [hgetd]
          have hw := h.hwork
          omega
        · intro hbad
          exact absurd hbad (by omega)
      · have hb1 : emptyBit s = 1 := by
          rw [emptyBit, if_pos]
          refine ⟨hrnil, by omega, ?_⟩
          rw [hii] at hstop
          exact hstop
        have hb2 : emptyBit { s with
            time := (s.procs.get ⟨admitFrom s.procs s.time s.i, hi2lt⟩).arrivalTime,
            i := admitFrom s.procs s.time s.i } = 0 := by
          rw [emptyBit, if_neg]
          intro hbad
          obtain ⟨-, -, hbad3⟩ := hbad
          simp only [] at hbad3
          rw [hgetd] at hbad3
          omega
        rw [measureNP_lit, hb2, measureNP, hb1]
        omega
    | cons j rest =>
      have hlen := congrArg List.length hr
      simp only [List.length_append, List.length_range' s.i 1, List.length_cons] at hlen
      set jS := (selectMax (readyCmp s.procs lt) j rest).1 with hjS
      set rS := (selectMax (readyCmp s.procs lt) j rest).2 with hrS
      have hperm : (j :: rest).Perm (jS :: rS) := selectMax_perm (readyCmp s.procs lt) j rest
      have hpl : rest.length = rS.length := by
        have := hperm.length_eq
        simpa using this
      have hjmem : jS ∈ s.ready ++ List.range' s.i (admitFrom s.procs s.time s.i - s.i) := by
        rw [hr]
        exact hperm.mem_iff.mpr (List.mem_cons_self jS rS)
      have hjlt : jS < admitFrom s.procs s.time s.i := hmem2 jS hjmem
      have hjlen : jS < s.procs.length := lt_of_lt_of_le hjlt hle
      have hnodup3 : (jS :: rS).Nodup := by
        rw [hr] at hnodup2
        exact (hperm.nodup_iff).mp hnodup2
      have hjnotin : jS ∉ rS := (List.nodup_cons.mp hnodup3).1
      set pS := s.procs.getD jS default with hpS
      have hrdyS := hrdy2 jS hjmem
      rw [← hpS] at hrdyS
      rcases hrdyS with ⟨r1, r2, r3, r4, r5, r6⟩
      set p1 := setResponse s.time pS with hp1
      set comp := s.time + p1.burstTime with hcomp
      set pF := finalizeAt comp p1 with hpF
      have htm := h.htime
      have hp1resp : p1.responseTime = s.time - pS.arrivalTime := by
        rw [hp1]
        exact setResponse_responseTime_unset s.time r5
      have hp1b : p1.burstTime = pS.burstTime := by
        rw [hp1]
        simp
      have hcompval : comp = s.time + pS.burstTime := by
        rw [hcomp, hp1]
        simp
      have hcomppos : 0 < comp := by omega
      have hDone : DoneNP pF := by
        rw [hpF]
        refine ⟨by simp, by simp, ?_, ?_, ?_, ?_, ?_, ?_⟩
        · simp only [finalizeAt_arrivalTime, finalizeAt_burstTime, finalizeAt_completionTime,
            hp1, setResponse_arrivalTime, setResponse_burstTime]
          omega
        · simp only [finalizeAt_responseTime, hp1resp]
          omega
        · simp only [finalizeAt_responseTime, finalizeAt_waitingTime, hp1,
            setResponse_responseTime_unset s.time r5, setResponse_arrivalTime,
            setResponse_burstTime]
          omega
        · simp only [finalizeAt_burstTime, hp1, setResponse_burstTime]
          omega
        · simp only [finalizeAt_arrivalTime, hp1, setResponse_arrivalTime]
          omega
        · simp only [finalizeAt_remainingTime, finalizeAt_burstTime, hp1,
            setResponse_remainingTime, setResponse_burstTime]
          omega
      have hdone2 : ∀ k, k < admitFrom s.procs s.time s.i → k ∉ rS →
          DoneNP ((s.procs.set jS pF).getD k default) := by
        intro k hk hnk
        by_cases hkj : k = jS
        · subst hkj
          rw [listGetDSetSelf pF default hjlen]
          exact hDone
        · rw [listGetDSetNe pF default (fun hbad => hkj hbad.symm)]
          have hknot2 : k ∉ s.ready ++ List.range' s.i (admitFrom s.procs s.time s.i - s.i) := by
            intro hbad
            rw [hr] at hbad
            rcases List.mem_cons.mp (hperm.mem_iff.mp hbad) with hbad2 | hbad2
            · exact hkj hbad2
            · exact hnk hbad2
          by_cases hki : k < s.i
          · refine h.hdone k hki ?_
            intro hbad
            exact hknot2 (List.mem_append.mpr (Or.inl hbad))
          · exfalso
            refine hknot2 (List.mem_append.mpr (Or.inr ?_))
            exact List.mem_range'_1.mpr ⟨by omega, by omega⟩
      have hwork2 : ((s.procs.set jS pF).map workNP).sum ≤ comp := by
        have hsum := sumMapSetInt workNP s.procs jS pF hjlen
        rw [← hpS] at hsum
        have hwS : workNP pS = 0 := by
          rw [workNP, if_pos r6]
        have hwF : workNP pF = pS.burstTime := by
          rw [workNP, if_neg]
          · rw [hpF, hp1]
            simp
          · rw [hpF]
            simp only [finalizeAt_completionTime]
            omega
        have hw := h.hwork
        omega
      refine ⟨{ procs := s.procs.set jS pF, ready := rS, time := comp,
                i := admitFrom s.procs s.time s.i, completed := s.completed + 1 },
              ?_, ?_, ?_, by simp⟩
      · simp only [nonpreStep, hc, if_true, hr]
      · refine invNP_mk ?_ ?_ ?_ ?_ ?_ hdone2 ?_ ?_ hwork2 ?_
        · simpa using hle
        · omega
        · intro k hk
          have hk2 : k ∈ s.ready ++ List.range' s.i (admitFrom s.procs s.time s.i - s.i) := by
            rw [hr]
            exact hperm.mem_iff.mpr (List.mem_cons_of_mem jS hk)
          exact hmem2 k hk2
        · exact (List.nodup_cons.mp hnodup3).2
        · intro k hk
          have hkne : jS ≠ k := fun hbad => hjnotin (hbad ▸ hk)
          rw [listGetDSetNe pF default hkne]
          have hkmem : k ∈ s.ready ++ List.range' s.i (admitFrom s.procs s.time s.i - s.i) := by
            rw [hr]
            exact hperm.mem_iff.mpr (List.mem_cons_of_mem jS hk)
          refine readyNPr_mono ?_ (hrdy2 k hkmem)
          omega
        · intro k hk1 hk2
          have hkne : jS ≠ k := by omega
          rw [List.length_set] at hk2
          rw [listGetDSetNe pF default hkne]
          exact h.hfresh k (by omega) hk2
        · omega
        · intro hfin2
          simp only [List.length_set] at hfin2
          have hrS0 : rS.length = 0 := by omega
          have hAll : ∀ k, k < (s.procs.set jS pF).length →
              DoneNP ((s.procs.set jS pF).getD k default) := by
            intro k hk
            rw [List.length_set] at hk
            refine hdone2 k (by omega) ?_
            intro hbad
            have := List.length_pos.mpr (List.ne_nil_of_mem hbad)
            omega
          have hpoint : ∀ p ∈ s.procs.set jS pF, workNP p = p.burstTime := by
            refine forallMemOfForallGetD ?_
            intro k hk
            rcases hAll k hk with ⟨d1, d2, d3, d4, d5, d6, d7, d8⟩
            rw [workNP, if_neg]
            omega
          have hBurst : totalBurstI (s.procs.set jS pF)
              = ((s.procs.set jS pF).map workNP).sum := by
            rw [totalBurstI]
            exact (sumMapCongr workNP (fun p => p.burstTime) _ hpoint).symm
          have hjlen2 : jS < (s.procs.set jS pF).length := by
            simpa [List.length_set] using hjlen
          have hmemF : pF ∈ s.procs.set jS pF := by
            have hmm := listGetDMem default hjlen2
            rwa [listGetDSetSelf pF default hjlen] at hmm
          have hcmax := completionLeMaxCompletion hmemF
          have hpFc : pF.completionTime = comp := by
            rw [hpF]
            simp
          rw [hpFc] at hcmax
          rw [hBurst]
          omega
      · have hb2 := emptyBit_le_one
          { procs := s.procs.set jS pF, ready := rS, time := comp,
            i := admitFrom s.procs s.time s.i, completed := s.completed + 1 }
        rw [measureNP_lit, measureNP]
        simp only [List.length_set]
        omega
  · left
    refine ⟨?_, by omega⟩
    simp only [nonpreStep, hc, if_false]

/-- Running the SJF / Priority loop from an invariant state with enough fuel
succeeds, and every process in the output is finalized. -/
theorem nonpreLoop_ok (lt : Process → Process → Bool) :
    ∀ fuel s, InvNP s → measureNP s < fuel →
      ∃ out, nonpreLoop lt fuel s = .ok out ∧ out.length = s.procs.length ∧
        (∀ k, k < out.length → DoneNP (out.getD k default)) ∧
        totalBurstI out ≤ maxCompletion out := by
  intro fuel
  induction fuel with
  | zero => intro s _ hm; omega
  | succ n ih =>
    intro s h hm
    rcases nonpreStep_spec lt s h with ⟨hstep, hcl⟩ | ⟨s2, hstep, h2, hlt, hlen⟩
    · refine ⟨s.procs, ?_, rfl, ?_, h.hfin hcl⟩
      · simp only [nonpreLoop, hstep]
      · intro k hk
        have hcnt := h.hcount
        have hil := h.hi
        have hrlen : s.ready.length = 0 := by omega
        have hrnil : s.ready = [] := List.eq_nil_of_length_eq_zero hrlen
        refine h.hdone k (by omega) ?_
        rw [hrnil]
        exact List.not_mem_nil k
    · obtain ⟨out, hout, hl, hd, hb⟩ := ih s2 h2 (by omega)
      refine ⟨out, ?_, by omega, hd, hb⟩
      simp only [nonpreLoop, hstep]
      exact hout

theorem invNP_initState {l : List Process} (hv : ValidInput l) : InvNP (initState l) := by
  rw [initState]
  refine invNP_mk (Nat.zero_le _) rfl ?_ List.nodup_nil ?_ ?_ ?_ le_rfl ?_ ?_
  · intro j hj
    cases hj
  · intro j hj
    cases hj
  · intro j hj
    omega
  · intro j hj1 hj2
    have hmem := listGetDMem default hj2
    rcases hv _ hmem with ⟨v1, v2, v3, v4, v5⟩
    exact ⟨v3, v2, v1, v4, v5⟩
  · refine le_of_eq (List.sum_eq_zero ?_)
    intro x hx
    rcases List.mem_map.mp hx with ⟨p, hp, hpx⟩
    rcases hv p hp with ⟨-, -, -, -, v5⟩
    rw [← hpx, workNP, if_pos v5]
  · intro h0
    have : l = [] := List.eq_nil_of_length_eq_zero h0.symm
    subst this
    simp [totalBurstI, maxCompletion]

theorem measureNP_init (l : List Process) : measureNP (initState l) < nonpreFuel l := by
  have hb := emptyBit_le_one (initState l)
  rw [measureNP, nonpreFuel]
  simp only [initState] at hb ⊢
  omega

/-- One iteration of the SRTF / preemptive Priority loop, from an invariant
state. -/
theorem preStep_spec (lt : Process → Process → Bool) (s : SimState) (h : InvP s) :
    (preStep lt s = .done s.procs ∧ s.completed = s.procs.length) ∨
    (∃ s2, preStep lt s = .next s2 ∧ InvP s2 ∧ measureP s2 < measureP s ∧
      s2.procs.length = s.procs.length) := by
  have hge := admitFrom_ge s.procs s.time s.i
  have hle := admitFrom_le s.procs s.time h.hi
  have hcnt := h.hcount
  have hiLen := h.hi
  by_cases hc : s.completed < s.procs.length
  · right
    obtain ⟨hmem2, hnodup2⟩ := ready2_facts s h.hi h.hmem h.hnodup
    have hrdy2 := ready2_readyPPr s h
    cases hr : s.ready ++ List.range' s.i (admitFrom s.procs s.time s.i - s.i) with
    | nil =>
      have hlen := congrArg List.length hr
      simp only [List.length_append, List.length_range' s.i 1, List.length_nil] at hlen
      have hrnil : s.ready = [] := List.eq_nil_of_length_eq_zero (by omega)
      have hrlen0 : s.ready.length = 0 := by rw [hrnil]; rfl
      have hii : admitFrom s.procs s.time s.i = s.i := by omega
      have hi2lt : admitFrom s.procs s.time s.i < s.procs.length := by omega
      have hstop := admitFrom_stop s.procs s.time s.i hi2lt
      have hfr := h.hfresh (admitFrom s.procs s.time s.i) (by omega) hi2lt
      have hgetd : (s.procs.get ⟨admitFrom s.procs s.time s.i, hi2lt⟩).arrivalTime
          = (s.procs.getD (admitFrom s.procs s.time s.i) default).arrivalTime := by
        rw [List.getD_eq_getElem _ _ hi2lt, List.get_eq_getElem]
      refine ⟨{ s with time := (s.procs.get ⟨admitFrom s.procs s.time s.i, hi2lt⟩).arrivalTime,
                       i := admitFrom s.procs s.time s.i }, ?_, ?_, ?_, rfl⟩
      · simp only [preStep, hc, if_true, hr, dif_pos hi2lt]
      · refine invP_mk hle (by omega) ?_ h.hnodup ?_ ?_ ?_ ?_ ?_ ?_
        · intro k hk
          exact lt_of_lt_of_le (h.hmem k hk) hge
        · intro k hk
          rw [hrnil] at hk
          cases hk
        · intro k hk hnk
          exact h.hdone k (by omega) hnk
        · intro k hk1 hk2
          exact h.hfresh k (by omega) hk2
        · rw [hgetd]
          exact hfr.2.2.1
        · rw [hgetd]
          have hw := h.hwork
          omega
        · intro hbad
          exact absurd hbad (by omega)
      · have hb1 : emptyBit s = 1 := by
          rw [emptyBit, if_pos]
          refine ⟨hrnil, by omega, ?_⟩
          rw [hii] at hstop
          exact hstop
        have hb2 : emptyBit { s with
            time := (s.procs.get ⟨admitFrom s.procs s.time s.i, hi2lt⟩).arrivalTime,
            i := admitFrom s.procs s.time s.i } = 0 := by
          rw [emptyBit, if_neg]
          intro hbad
          obtain ⟨-, -, hbad3⟩ := hbad
          simp only [] at hbad3
          rw [hgetd] at hbad3
          omega
        rw [measureP_lit, hb2, measureP, hb1]
        omega
    | cons j rest =>
      have hlen := congrArg List.length hr
      simp only [List.length_append, List.length_range' s.i 1, List.length_cons] at hlen
      set jS := (selectMax (readyCmp s.procs lt) j rest).1 with hjS
      set rS := (selectMax (readyCmp s.procs lt) j rest).2 with hrS
      have hperm : (j :: rest).Perm (jS :: rS) := selectMax_perm (readyCmp s.procs lt) j rest
      have hpl : rest.length = rS.length := by
        have := hperm.length_eq
        simpa using this
      have hjmem : jS ∈ s.ready ++ List.range' s.i (admitFrom s.procs s.time s.i - s.i) := by
        rw [hr]
        exact hperm.mem_iff.mpr (List.mem_cons_self jS rS)
      have hjlt : jS < admitFrom s.procs s.time s.i := hmem2 jS hjmem
      have hjlen : jS < s.procs.length := lt_of_lt_of_le hjlt hle
      have hnodup3 : (jS :: rS).Nodup := by
        rw [hr] at hnodup2
        exact (hperm.nodup_iff).mp hnodup2
      have hjnotin : jS ∉ rS := (List.nodup_cons.mp hnodup3).1
      set pS := s.procs.getD jS default with hpS
      have hrdyS := hrdy2 jS hjmem
      rw [← hpS] at hrdyS
      rcases hrdyS with ⟨r1, r2, r3, r4, r5, r6, r7⟩
      set p1 := setResponse s.time pS with hp1
      have htm := h.htime
      have hp1rem : p1.remainingTime = pS.remainingTime := by
        rw [hp1]; simp
      have hp1arr : p1.arrivalTime = pS.arrivalTime := by
        rw [hp1]; simp
      have hp1b : p1.burstTime = pS.burstTime := by
        rw [hp1]; simp
      set ex := (if h2 : admitFrom s.procs s.time s.i < s.procs.length then
          min p1.remainingTime
            ((s.procs.get ⟨admitFrom s.procs s.time s.i, h2⟩).arrivalTime - s.time)
        else p1.remainingTime) with hex
      have hex1 : 1 ≤ ex := by
        rw [hex]
        split
        · next h2 =>
          have hstop := admitFrom_stop s.procs s.time s.i h2
          have hgetd : (s.procs.get ⟨admitFrom s.procs s.time s.i, h2⟩).arrivalTime
              = (s.procs.getD (admitFrom s.procs s.time s.i) default).arrivalTime := by
            rw [List.getD_eq_getElem _ _ h2, List.get_eq_getElem]
          rw [hgetd]
          refine le_min ?_ ?_ <;> omega
        · omega
      have hex2 : ex ≤ pS.remainingTime := by
        rw [hex]
        split
        · next h2 =>
          rw [← hp1rem]
          exact min_le_left _ _
        · omega
      set p2 := subRemaining ex p1 with hp2
      have hp2rem : p2.remainingTime = pS.remainingTime - ex := by
        rw [hp2]
        simp only [subRemaining_remainingTime, hp1rem]
      have hresp : 0 ≤ p1.responseTime ∧ pS.arrivalTime + p1.responseTime ≤ s.time := by
        rcases r6 with h6 | ⟨h6a, h6b⟩
        · rw [hp1, setResponse_responseTime_unset _ h6]
          constructor <;> omega
        · rw [hp1, setResponse_responseTime_set _ (by omega)]
          exact ⟨h6a, h6b⟩
      have hstep : preStep lt s =
          if p2.remainingTime = 0 then
            .next { procs := s.procs.set jS (finalizeAt (s.time + ex) p2), ready := rS,
                    time := s.time + ex, i := admitFrom s.procs s.time s.i,
                    completed := s.completed + 1 }
          else
            .next { procs := s.procs.set jS p2, ready := rS ++ [jS], time := s.time + ex,
                    i := admitFrom s.procs s.time s.i, completed := s.completed } := by
        simp only [preStep, hc, if_true, hr]
      have hworkS : workP pS = pS.burstTime - pS.remainingTime := by
        rw [workP]
      by_cases hz : p2.remainingTime = 0
      · have hz2 : pS.remainingTime = ex := by omega
        have hDone : DoneP (finalizeAt (s.time + ex) p2) := by
          refine ⟨by simp, by simp, ?_, ?_, ?_, ?_, ?_, ?_⟩
          · simp only [finalizeAt_arrivalTime, finalizeAt_burstTime, finalizeAt_completionTime,
              hp2, subRemaining_arrivalTime, subRemaining_burstTime, hp1arr, hp1b]
            omega
          · simp only [finalizeAt_responseTime, hp2, subRemaining_responseTime]
            exact hresp.1
          · simp only [finalizeAt_arrivalTime, finalizeAt_responseTime, finalizeAt_completionTime,
              hp2, subRemaining_arrivalTime, subRemaining_responseTime, hp1arr]
            have := hresp.2
            omega
          · simp only [finalizeAt_burstTime, hp2, subRemaining_burstTime, hp1b]
            omega
          · simp only [finalizeAt_arrivalTime, hp2, subRemaining_arrivalTime, hp1arr]
            omega
          · simp only [finalizeAt_remainingTime]
            exact hz
        have hdone2 : ∀ k, k < admitFrom s.procs s.time s.i → k ∉ rS →
            DoneP ((s.procs.set jS (finalizeAt (s.time + ex) p2)).getD k default) := by
          intro k hk hnk
          by_cases hkj : k = jS
          · subst hkj
            rw [listGetDSetSelf _ default hjlen]
            exact hDone
          · rw [listGetDSetNe _ default (fun hbad => hkj hbad.symm)]
            have hknot2 : k ∉ s.ready ++ List.range' s.i (admitFrom s.procs s.time s.i - s.i) := by
              intro hbad
              rw [hr] at hbad
              rcases List.mem_cons.mp (hperm.mem_iff.mp hbad) with hbad2 | hbad2
              · exact hkj hbad2
              · exact hnk hbad2
            by_cases hki : k < s.i
            · refine h.hdone k hki ?_
              intro hbad
              exact hknot2 (List.mem_append.mpr (Or.inl hbad))
            · exfalso
              refine hknot2 (List.mem_append.mpr (Or.inr ?_))
              exact List.mem_range'_1.mpr ⟨by omega, by omega⟩
        have hwork2 : ((s.procs.set jS (finalizeAt (s.time + ex) p2)).map workP).sum
            ≤ s.time + ex := by
          have hsum := sumMapSetInt workP s.procs jS (finalizeAt (s.time + ex) p2) hjlen
          rw [← hpS] at hsum
          have hwF : workP (finalizeAt (s.time + ex) p2) = pS.burstTime := by
            rw [workP]
            simp only [finalizeAt_burstTime, finalizeAt_remainingTime, hp2,
              subRemaining_burstTime, subRemaining_remainingTime, hp1b, hp1rem]
            omega
          have hw := h.hwork
          omega
        refine ⟨{ procs := s.procs.set jS (finalizeAt (s.time + ex) p2), ready := rS,
                  time := s.time + ex, i := admitFrom s.procs s.time s.i,
                  completed := s.completed + 1 }, ?_, ?_, ?_, by simp⟩
        · rw [hstep, if_pos hz]
        · refine invP_mk ?_ ?_ ?_ ?_ ?_ hdone2 ?_ ?_ hwork2 ?_
          · simpa using hle
          · omega
          · intro k hk
            have hk2 : k ∈ s.ready ++ List.range' s.i (admitFrom s.procs s.time s.i - s.i) := by
              rw [hr]
              exact hperm.mem_iff.mpr (List.mem_cons_of_mem jS hk)
            exact hmem2 k hk2
          · exact (List.nodup_cons.mp hnodup3).2
          · intro k hk
            have hkne : jS ≠ k := fun hbad => hjnotin (hbad ▸ hk)
            rw [listGetDSetNe _ default hkne]
            have hkmem : k ∈ s.ready ++ List.range' s.i (admitFrom s.procs s.time s.i - s.i) := by
              rw [hr]
              exact hperm.mem_iff.mpr (List.mem_cons_of_mem jS hk)
            refine readyPPr_mono ?_ (hrdy2 k hkmem)
            omega
          · intro k hk1 hk2
            have hkne : jS ≠ k := by omega
            rw [List.length_set] at hk2
            rw [listGetDSetNe _ default hkne]
            exact h.hfresh k (by omega) hk2
          · omega
          · intro hfin2
            simp only [List.length_set] at hfin2
            have hrS0 : rS.length = 0 := by omega
            have hAll : ∀ k, k < (s.procs.set jS (finalizeAt (s.time + ex) p2)).length →
                DoneP ((s.procs.set jS (finalizeAt (s.time + ex) p2)).getD k default) := by
              intro k hk
              rw [List.length_set] at hk
              refine hdone2 k (by omega) ?_
              intro hbad
              have := List.length_pos.mpr (List.ne_nil_of_mem hbad)
              omega
            have hpoint : ∀ p ∈ s.procs.set jS (finalizeAt (s.time + ex) p2),
                workP p = p.burstTime := by
              refine forallMemOfForallGetD ?_
              intro k hk
              rcases hAll k hk with ⟨d1, d2, d3, d4, d5, d6, d7, d8⟩
              rw [workP]
              omega
            have hBurst : totalBurstI (s.procs.set jS (finalizeAt (s.time + ex) p2))
                = ((s.procs.set jS (finalizeAt (s.time + ex) p2)).map workP).sum := by
              rw [totalBurstI]
              exact (sumMapCongr workP (fun p => p.burstTime) _ hpoint).symm
            have hjlen2 : jS < (s.procs.set jS (finalizeAt (s.time + ex) p2)).length := by
              simpa [List.length_set] using hjlen
            have hmemF : finalizeAt (s.time + ex) p2 ∈
                s.procs.set jS (finalizeAt (s.time + ex) p2) := by
              have hmm := listGetDMem default hjlen2
              rwa [listGetDSetSelf _ default hjlen] at hmm
            have hcmax := completionLeMaxCompletion hmemF
            rw [finalizeAt_completionTime] at hcmax
            rw [hBurst]
            omega
        · have hb2 := emptyBit_le_one
            { procs := s.procs.set jS (finalizeAt (s.time + ex) p2), ready := rS,
              time := s.time + ex, i := admitFrom s.procs s.time s.i,
              completed := s.completed + 1 }
          have hrem := sumMapSetNat (fun p => p.remainingTime.toNat) s.procs jS
            (finalizeAt (s.time + ex) p2) hjlen
          rw [← hpS] at hrem
          have hremF : (finalizeAt (s.time + ex) p2).remainingTime = 0 := by
            rw [finalizeAt_remainingTime]
            exact hz
          rw [measureP_lit, measureP]
          simp only [List.length_set, natRemSum]
          simp only [natRemSum] at hrem
          rw [hremF] at hrem
          simp only [Int.toNat_zero] at hrem
          omega
      · have hrem2pos : 1 ≤ p2.remainingTime := by omega
        have hReady2 : ReadyPPr (s.time + ex) p2 := by
          refine ⟨hrem2pos, ?_, ?_, ?_, ?_, ?_, ?_⟩
          · rw [hp2rem, hp2, subRemaining_burstTime, hp1b]
            omega
          · rw [hp2, subRemaining_burstTime, hp1b]
            omega
          · rw [hp2, subRemaining_arrivalTime, hp1arr]
            omega
          · rw [hp2rem, hp2, subRemaining_arrivalTime, subRemaining_burstTime, hp1arr, hp1b]
            omega
          · rw [hp2, subRemaining_responseTime, subRemaining_arrivalTime, hp1arr]
            exact Or.inr ⟨hresp.1, by omega⟩
          · rw [hp2, subRemaining_completionTime, hp1]
            simpa using r7
        have hwork2 : ((s.procs.set jS p2).map workP).sum ≤ s.time + ex := by
          have hsum := sumMapSetInt workP s.procs jS p2 hjlen
          rw [← hpS] at hsum
          have hwF : workP p2 = pS.burstTime - pS.remainingTime + ex := by
            rw [workP, hp2rem, hp2, subRemaining_burstTime, hp1b]
            omega
          have hw := h.hwork
          omega
        refine ⟨{ procs := s.procs.set jS p2, ready := rS ++ [jS], time := s.time + ex,
                  i := admitFrom s.procs s.time s.i, completed := s.completed }, ?_, ?_, ?_,
                by simp⟩
        · rw [hstep, if_neg hz]
        · refine invP_mk ?_ ?_ ?_ ?_ ?_ ?_ ?_ ?_ hwork2 ?_
          · simpa using hle
          · simp only [List.length_append, List.length_cons, List.length_nil]
            omega
          · intro k hk
            rcases List.mem_append.mp hk with hk | hk
            · have hk2 : k ∈ s.ready ++ List.range' s.i (admitFrom s.procs s.time s.i - s.i) := by
                rw [hr]
                exact hperm.mem_iff.mpr (List.mem_cons_of_mem jS hk)
              exact hmem2 k hk2
            · rcases List.mem_cons.mp hk with hk | hk
              · omega
              · cases hk
          · rw [List.nodup_append]
            refine ⟨(List.nodup_cons.mp hnodup3).2, List.nodup_singleton jS, ?_⟩
            intro a ha hb
            rcases List.mem_cons.mp hb with hb | hb
            · subst hb
              exact hjnotin ha
            · cases hb
          · intro k hk
            rcases List.mem_append.mp hk with hk | hk
            · have hkne : jS ≠ k := fun hbad => hjnotin (hbad ▸ hk)
              rw [listGetDSetNe _ default hkne]
              have hkmem : k ∈ s.ready ++ List.range' s.i (admitFrom s.procs s.time s.i - s.i) := by
                rw [hr]
                exact hperm.mem_iff.mpr (List.mem_cons_of_mem jS hk)
              refine readyPPr_mono ?_ (hrdy2 k hkmem)
              omega
            · rcases List.mem_cons.mp hk with hk | hk
              · subst hk
                rw [listGetDSetSelf _ default hjlen]
                exact hReady2
              · cases hk
          · intro k hk hnk
            have hkj : k ≠ jS := by
              intro hbad
              exact hnk (List.mem_append.mpr (Or.inr (hbad ▸ List.mem_cons_self jS [])))
            rw [listGetDSetNe _ default (fun hbad => hkj hbad.symm)]
            have hknot2 : k ∉ s.ready ++ List.range' s.i (admitFrom s.procs s.time s.i - s.i) := by
              intro hbad
              rw [hr] at hbad
              rcases List.mem_cons.mp (hperm.mem_iff.mp hbad) with hbad2 | hbad2
              · exact hkj hbad2
              · exact hnk (List.mem_append.mpr (Or.inl hbad2))
            by_cases hki : k < s.i
            · refine h.hdone k hki ?_
              intro hbad
              exact hknot2 (List.mem_append.mpr (Or.inl hbad))
            · exfalso
              refine hknot2 (List.mem_append.mpr (Or.inr ?_))
              exact List.mem_range'_1.mpr ⟨by omega, by omega⟩
          · intro k hk1 hk2
            have hkne : jS ≠ k := by omega
            rw [List.length_set] at hk2
            rw [listGetDSetNe _ default hkne]
            exact h.hfresh k (by omega) hk2
          · omega
          · intro hbad
            simp only [List.length_set] at hbad
            omega
        · have hb2 := emptyBit_le_one
            { procs := s.procs.set jS p2, ready := rS ++ [jS], time := s.time + ex,
              i := admitFrom s.procs s.time s.i, completed := s.completed }
          have hrem := sumMapSetNat (fun p => p.remainingTime.toNat) s.procs jS p2 hjlen
          rw [← hpS] at hrem
          rw [measureP_lit, measureP]
          simp only [List.length_set, natRemSum]
          simp only [natRemSum] at hrem
          rw [hp2rem] at hrem
          omega
  · left
    refine ⟨?_, by omega⟩
    simp only [preStep, hc, if_false]

theorem preLoop_ok (lt : Process → Process → Bool) :
    ∀ fuel s, InvP s → measureP s < fuel →
      ∃ out, preLoop lt fuel s = .ok out ∧ out.length = s.procs.length ∧
        (∀ k, k < out.length → DoneP (out.getD k default)) ∧
        totalBurstI out ≤ maxCompletion out := by
  intro fuel
  induction fuel with
  | zero => intro s _ hm; omega
  | succ n ih =>
    intro s h hm
    rcases preStep_spec lt s h with ⟨hstep, hcl⟩ | ⟨s2, hstep, h2, hlt, hlen⟩
    · refine ⟨s.procs, ?_, rfl, ?_, h.hfin hcl⟩
      · simp only [preLoop, hstep]
      · intro k hk
        have hcnt := h.hcount
        have hil := h.hi
        have hrlen : s.ready.length = 0 := by omega
        have hrnil : s.ready = [] := List.eq_nil_of_length_eq_zero hrlen
        refine h.hdone k (by omega) ?_
        rw [hrnil]
        exact List.not_mem_nil k
    · obtain ⟨out, hout, hl, hd, hb⟩ := ih s2 h2 (by omega)
      refine ⟨out, ?_, by omega, hd, hb⟩
      simp only [preLoop, hstep]
      exact hout

theorem invP_initState {l : List Process} (hv : ValidInput l) : InvP (initState l) := by
  rw [initState]
  refine invP_mk (Nat.zero_le _) rfl ?_ List.nodup_nil ?_ ?_ ?_ le_rfl ?_ ?_
  · intro j hj
    cases hj
  · intro j hj
    cases hj
  · intro j hj
    omega
  · intro j hj1 hj2
    have hmem := listGetDMem default hj2
    rcases hv _ hmem with ⟨v1, v2, v3, v4, v5⟩
    exact ⟨v3, v2, v1, v4, v5⟩
  · refine le_of_eq (List.sum_eq_zero ?_)
    intro x hx
    rcases List.mem_map.mp hx with ⟨p, hp, hpx⟩
    rcases hv p hp with ⟨-, -, v3, -, -⟩
    rw [← hpx, workP, v3]
    omega
  · intro h0
    have : l = [] := List.eq_nil_of_length_eq_zero h0.symm
    subst this
    simp [totalBurstI, maxCompletion]

theorem measureP_init {l : List Process} (hv : ValidInput l) :
    measureP (initState l) < preFuel l := by
  have hb := emptyBit_le_one (initState l)
  have hsum : natRemSum l = burstFuel l := by
    rw [natRemSum, burstFuel]
    refine congrArg List.sum (List.map_congr_left ?_)
    intro p hp
    rcases hv p hp with ⟨-, -, v3, -, -⟩
    rw [v3]
  rw [measureP, preFuel]
  simp only [initState] at hb ⊢
  rw [hsum]
  omega

/-- One iteration of the Round-Robin loop (quantum at least `1`), from an
invariant state. -/
theorem rrStep_spec (q : Int) (hq : 1 ≤ q) (s : SimState) (h : InvP s) :
    (rrStep q s = .done s.procs ∧ s.completed = s.procs.length) ∨
    (∃ s2 sl, rrStep q s = .next s2 sl ∧ InvP s2 ∧ measureP s2 < measureP s ∧
      s2.procs.length = s.procs.length) := by
  have hge := admitFrom_ge s.procs s.time s.i
  have hle := admitFrom_le s.procs s.time h.hi
  have hcnt := h.hcount
  have hiLen := h.hi
  by_cases hc : s.completed < s.procs.length
  · right
    obtain ⟨hmem2, hnodup2⟩ := ready2_facts s h.hi h.hmem h.hnodup
    have hrdy2 := ready2_readyPPr s h
    cases hr : s.ready ++ List.range' s.i (admitFrom s.procs s.time s.i - s.i) with
    | nil =>
      have hlen := congrArg List.length hr
      simp only [List.length_append, List.length_range' s.i 1, List.length_nil] at hlen
      have hrnil : s.ready = [] := List.eq_nil_of_length_eq_zero (by omega)
      have hrlen0 : s.ready.length = 0 := by rw [hrnil]; rfl
      have hii : admitFrom s.procs s.time s.i = s.i := by omega
      have hi2lt : admitFrom s.procs s.time s.i < s.procs.length := by omega
      have hstop := admitFrom_stop s.procs s.time s.i hi2lt
      have hfr := h.hfresh (admitFrom s.procs s.time s.i) (by omega) hi2lt
      have hgetd : (s.procs.get ⟨admitFrom s.procs s.time s.i, hi2lt⟩).arrivalTime
          = (s.procs.getD (admitFrom s.procs s.time s.i) default).arrivalTime := by
        rw [List.getD_eq_getElem _ _ hi2lt, List.get_eq_getElem]
      refine ⟨{ s with time := (s.procs.get ⟨admitFrom s.procs s.time s.i, hi2lt⟩).arrivalTime,
                       i := admitFrom s.procs s.time s.i }, none, ?_, ?_, ?_, rfl⟩
      · simp only [rrStep, hc, if_true, hr, dif_pos hi2lt]
      · refine invP_mk hle (by omega) ?_ h.hnodup ?_ ?_ ?_ ?_ ?_ ?_
        · intro k hk
          exact lt_of_lt_of_le (h.hmem k hk) hge
        · intro k hk
          rw [hrnil] at hk
          cases hk
        · intro k hk hnk
          exact h.hdone k (by omega) hnk
        · intro k hk1 hk2
          exact h.hfresh k (by omega) hk2
        · rw [hgetd]
          exact hfr.2.2.1
        · rw [hgetd]
          have hw := h.hwork
          omega
        · intro hbad
          exact absurd hbad (by omega)
      · have hb1 : emptyBit s = 1 := by
          rw [emptyBit, if_pos]
          refine ⟨hrnil, by omega, ?_⟩
          rw [hii] at hstop
          exact hstop
        have hb2 : emptyBit { s with
            time := (s.procs.get ⟨admitFrom s.procs s.time s.i, hi2lt⟩).arrivalTime,
            i := admitFrom s.procs s.time s.i } = 0 := by
          rw [emptyBit, if_neg]
          intro hbad
          obtain ⟨-, -, hbad3⟩ := hbad
          simp only [] at hbad3
          rw [hgetd] at hbad3
          omega
        rw [measureP_lit, hb2, measureP, hb1]
        omega
    | cons j rest =>
      have hlen := congrArg List.length hr
      simp only [List.length_append, List.length_range' s.i 1, List.length_cons] at hlen
      have hjmem : j ∈ s.ready ++ List.range' s.i (admitFrom s.procs s.time s.i - s.i) := by
        rw [hr]
        exact List.mem_cons_self j rest
      have hjlt : j < admitFrom s.procs s.time s.i := hmem2 j hjmem
      have hjlen : j < s.procs.length := lt_of_lt_of_le hjlt hle
      have hnodup3 : (j :: rest).Nodup := by
        rw [hr] at hnodup2
        exact hnodup2
      have hjnotin : j ∉ rest := (List.nodup_cons.mp hnodup3).1
      set pS := s.procs.getD j default with hpS
      have hrdyS := hrdy2 j hjmem
      rw [← hpS] at hrdyS
      rcases hrdyS with ⟨r1, r2, r3, r4, r5, r6, r7⟩
      set p1 := setResponse s.time pS with hp1
      have htm := h.htime
      have hp1rem : p1.remainingTime = pS.remainingTime := by
        rw [hp1]; simp
      have hp1arr : p1.arrivalTime = pS.arrivalTime := by
        rw [hp1]; simp
      have hp1b : p1.burstTime = pS.burstTime := by
        rw [hp1]; simp
      set ex := min q p1.remainingTime with hex
      have hex1 : 1 ≤ ex := by
        rw [hex]
        refine le_min hq ?_
        omega
      have hex2 : ex ≤ pS.remainingTime := by
        rw [hex, ← hp1rem]
        exact min_le_right _ _
      set p2 := subRemaining ex p1 with hp2
      have hp2rem : p2.remainingTime = pS.remainingTime - ex := by
        rw [hp2]
        simp only [subRemaining_remainingTime, hp1rem]
      have hresp : 0 ≤ p1.responseTime ∧ pS.arrivalTime + p1.responseTime ≤ s.time := by
        rcases r6 with h6 | ⟨h6a, h6b⟩
        · rw [hp1, setResponse_responseTime_unset _ h6]
          constructor <;> omega
        · rw [hp1, setResponse_responseTime_set _ (by omega)]
          exact ⟨h6a, h6b⟩
      set procs2 := s.procs.set j p2 with hprocs2
      have hlen2 : procs2.length = s.procs.length := by
        rw [hprocs2, List.length_set]
      set i3 := admitFrom procs2 (s.time + ex) (admitFrom s.procs s.time s.i) with hi3
      have hge3 : admitFrom s.procs s.time s.i ≤ i3 := by
        rw [hi3]
        exact admitFrom_ge _ _ _
      have hle3 : i3 ≤ s.procs.length := by
        rw [hi3, ← hlen2]
        exact admitFrom_le _ _ (by omega)
      have hgetd2 : ∀ k, j ≠ k → procs2.getD k default = s.procs.getD k default := by
        intro k hk
        rw [hprocs2, listGetDSetNe p2 default hk]
      have harr3 : ∀ k, admitFrom s.procs s.time s.i ≤ k → k < i3 →
          (s.procs.getD k default).arrivalTime ≤ s.time + ex := by
        intro k hk1 hk2
        rw [hi3] at hk2
        have := admitFrom_arrived procs2 (s.time + ex) (admitFrom s.procs s.time s.i) hk1 hk2
        rwa [hgetd2 k (by omega)] at this
      have hstep : rrStep q s =
          if 0 < p2.remainingTime then
            .next { procs := procs2,
                    ready := (rest ++ List.range' (admitFrom s.procs s.time s.i)
                      (i3 - admitFrom s.procs s.time s.i)) ++ [j],
                    time := s.time + ex, i := i3, completed := s.completed }
              (some (p1.id, s.time, s.time + ex))
          else
            .next { procs := procs2.set j (finalizeAt (s.time + ex) p2),
                    ready := rest ++ List.range' (admitFrom s.procs s.time s.i)
                      (i3 - admitFrom s.procs s.time s.i),
                    time := s.time + ex, i := i3, completed := s.completed + 1 }
              (some (p1.id, s.time, s.time + ex)) := by
        simp only [rrStep, hc, if_true, hr]
      have hmemR3 : ∀ k ∈ rest ++ List.range' (admitFrom s.procs s.time s.i)
          (i3 - admitFrom s.procs s.time s.i), k < i3 := by
        intro k hk
        rcases List.mem_append.mp hk with hk | hk
        · have : k ∈ s.ready ++ List.range' s.i (admitFrom s.procs s.time s.i - s.i) := by
            rw [hr]
            exact List.mem_cons_of_mem j hk
          exact lt_of_lt_of_le (hmem2 k this) hge3
        · rcases List.mem_range'_1.mp hk with ⟨hk1, hk2⟩
          omega
      have hnodupR3 : (rest ++ List.range' (admitFrom s.procs s.time s.i)
          (i3 - admitFrom s.procs s.time s.i)).Nodup := by
        refine List.Nodup.append (List.nodup_cons.mp hnodup3).2 (List.nodup_range' _ _) ?_
        intro a ha hb
        rcases List.mem_range'_1.mp hb with ⟨hb1, -⟩
        have : a ∈ s.ready ++ List.range' s.i (admitFrom s.procs s.time s.i - s.i) := by
          rw [hr]
          exact List.mem_cons_of_mem j ha
        have := hmem2 a this
        omega
      have hjnotinR3 : j ∉ rest ++ List.range' (admitFrom s.procs s.time s.i)
          (i3 - admitFrom s.procs s.time s.i) := by
        intro hbad
        rcases List.mem_append.mp hbad with hbad | hbad
        · exact hjnotin hbad
        · rcases List.mem_range'_1.mp hbad with ⟨hb1, -⟩
          omega
      have hreadyR3 : ∀ k ∈ rest ++ List.range' (admitFrom s.procs s.time s.i)
          (i3 - admitFrom s.procs s.time s.i),
          ReadyPPr (s.time + ex) (s.procs.getD k default) := by
        intro k hk
        rcases List.mem_append.mp hk with hk | hk
        · have hkmem : k ∈ s.ready ++ List.range' s.i (admitFrom s.procs s.time s.i - s.i) := by
            rw [hr]
            exact List.mem_cons_of_mem j hk
          refine readyPPr_mono ?_ (hrdy2 k hkmem)
          omega
        · rcases List.mem_range'_1.mp hk with ⟨hk1, hk2⟩
          have hkl : k < s.procs.length := by omega
          have harr := harr3 k hk1 (by omega)
          rcases h.hfresh k (by omega) hkl with ⟨f1, f2, f3, f4, f5⟩
          exact ⟨by omega, by omega, f2, f3, by omega, Or.inl f4, f5⟩
      have hdoneOld : ∀ k, k < admitFrom s.procs s.time s.i → k ≠ j →
          k ∉ rest → DoneP (s.procs.getD k default) := by
        intro k hk hkj hnk
        have hknot2 : k ∉ s.ready ++ List.range' s.i (admitFrom s.procs s.time s.i - s.i) := by
          intro hbad
          rw [hr] at hbad
          rcases List.mem_cons.mp hbad with hbad2 | hbad2
          · exact hkj hbad2
          · exact hnk hbad2
        by_cases hki : k < s.i
        · refine h.hdone k hki ?_
          intro hbad
          exact hknot2 (List.mem_append.mpr (Or.inl hbad))
        · exfalso
          refine hknot2 (List.mem_append.mpr (Or.inr ?_))
          exact List.mem_range'_1.mpr ⟨by omega, by omega⟩
      by_cases hz : 0 < p2.remainingTime
      · have hReady2 : ReadyPPr (s.time + ex) p2 := by
          refine ⟨by omega, ?_, ?_, ?_, ?_, ?_, ?_⟩
          · rw [hp2rem, hp2, subRemaining_burstTime, hp1b]
            omega
          · rw [hp2, subRemaining_burstTime, hp1b]
            omega
          · rw [hp2, subRemaining_arrivalTime, hp1arr]
            omega
          · rw [hp2rem, hp2, subRemaining_arrivalTime, subRemaining_burstTime, hp1arr, hp1b]
            omega
          · rw [hp2, subRemaining_responseTime, subRemaining_arrivalTime, hp1arr]
            exact Or.inr ⟨hresp.1, by omega⟩
          · rw [hp2, subRemaining_completionTime, hp1]
            simpa using r7
        have hwork2 : (procs2.map workP).sum ≤ s.time + ex := by
          have hsum := sumMapSetInt workP s.procs j p2 hjlen
          rw [← hpS] at hsum
          have hwF : workP p2 = pS.burstTime - pS.remainingTime + ex := by
            rw [workP, hp2rem, hp2, subRemaining_burstTime, hp1b]
            omega
          have hwS : workP pS = pS.burstTime - pS.remainingTime := by
            rw [workP]
          have hw := h.hwork
          rw [hprocs2]
          omega
        refine ⟨_, _, hstep.trans (if_pos hz), ?_, ?_, by rw [hlen2]⟩
        · refine invP_mk ?_ ?_ ?_ ?_ ?_ ?_ ?_ ?_ hwork2 ?_
          · omega
          · simp only [List.length_append, List.length_cons, List.length_nil,
              List.length_range' _ 1]
            omega
          · intro k hk
            rcases List.mem_append.mp hk with hk | hk
            · exact hmemR3 k hk
            · rcases List.mem_cons.mp hk with hk | hk
              · omega
              · cases hk
          · rw [List.nodup_append]
            refine ⟨hnodupR3, List.nodup_singleton j, ?_⟩
            intro a ha hb
            rcases List.mem_cons.mp hb with hb | hb
            · subst hb
              exact hjnotinR3 ha
            · cases hb
          · intro k hk
            rcases List.mem_append.mp hk with hk | hk
            · have hkne : j ≠ k := by
                intro hbad
                exact hjnotinR3 (hbad ▸ hk)
              rw [hgetd2 k hkne]
              exact hreadyR3 k hk
            · rcases List.mem_cons.mp hk with hk | hk
              · subst hk
                rw [hprocs2, listGetDSetSelf p2 default hjlen]
                exact hReady2
              · cases hk
          · intro k hk hnk
            have hkj : k ≠ j := by
              intro hbad
              exact hnk (List.mem_append.mpr (Or.inr (hbad ▸ List.mem_cons_self j [])))
            rw [hgetd2 k (fun hbad => hkj hbad.symm)]
            refine hdoneOld k ?_ hkj ?_
            · by_cases hki : k < admitFrom s.procs s.time s.i
              · exact hki
              · exfalso
                refine hnk (List.mem_append.mpr (Or.inl (List.mem_append.mpr (Or.inr ?_))))
                exact List.mem_range'_1.mpr ⟨by omega, by omega⟩
            · intro hbad
              exact hnk (List.mem_append.mpr (Or.inl (List.mem_append.mpr (Or.inl hbad))))
          · intro k hk1 hk2
            rw [hlen2] at hk2
            rw [hgetd2 k (by omega)]
            exact h.hfresh k (by omega) hk2
          · omega
          · intro hbad
            rw [hlen2] at hbad
            omega
        · have hb2 := emptyBit_le_one
            { procs := procs2,
              ready := (rest ++ List.range' (admitFrom s.procs s.time s.i)
                (i3 - admitFrom s.procs s.time s.i)) ++ [j],
              time := s.time + ex, i := i3, completed := s.completed }
          have hrem := sumMapSetNat (fun p => p.remainingTime.toNat) s.procs j p2 hjlen
          rw [← hpS] at hrem
          rw [measureP_lit, measureP]
          rw [hlen2]
          simp only [natRemSum]
          simp only [natRemSum] at hrem
          rw [← hprocs2] at hrem
          rw [hp2rem] at hrem
          omega
      · have hz0 : p2.remainingTime = 0 := by omega
        have hDone : DoneP (finalizeAt (s.time + ex) p2) := by
          refine ⟨by simp, by simp, ?_, ?_, ?_, ?_, ?_, ?_⟩
          · simp only [finalizeAt_arrivalTime, finalizeAt_burstTime, finalizeAt_completionTime,
              hp2, subRemaining_arrivalTime, subRemaining_burstTime, hp1arr, hp1b]
            omega
          · simp only [finalizeAt_responseTime, hp2, subRemaining_responseTime]
            exact hresp.1
          · simp only [finalizeAt_arrivalTime, finalizeAt_responseTime, finalizeAt_completionTime,
              hp2, subRemaining_arrivalTime, subRemaining_responseTime, hp1arr]
            have := hresp.2
            omega
          · simp only [finalizeAt_burstTime, hp2, subRemaining_burstTime, hp1b]
            omega
          · simp only [finalizeAt_arrivalTime, hp2, subRemaining_arrivalTime, hp1arr]
            omega
          · simp only [finalizeAt_remainingTime]
            exact hz0
        have hcollapse : procs2.set j (finalizeAt (s.time + ex) p2)
            = s.procs.set j (finalizeAt (s.time + ex) p2) := by
          rw [hprocs2]
          exact List.set_set p2 (finalizeAt (s.time + ex) p2) s.procs j
        have hdone2 : ∀ k, k < i3 →
            k ∉ rest ++ List.range' (admitFrom s.procs s.time s.i)
              (i3 - admitFrom s.procs s.time s.i) →
            DoneP ((procs2.set j (finalizeAt (s.time + ex) p2)).getD k default) := by
          intro k hk hnk
          rw [hcollapse]
          by_cases hkj : k = j
          · subst hkj
            rw [listGetDSetSelf _ default hjlen]
            exact hDone
          · rw [listGetDSetNe _ default (fun hbad => hkj hbad.symm)]
            by_cases hki : k < admitFrom s.procs s.time s.i
            · refine hdoneOld k hki hkj ?_
              intro hbad
              exact hnk (List.mem_append.mpr (Or.inl hbad))
            · exfalso
              refine hnk (List.mem_append.mpr (Or.inr ?_))
              exact List.mem_range'_1.mpr ⟨by omega, by omega⟩
        have hwork2 : ((procs2.set j (finalizeAt (s.time + ex) p2)).map workP).sum
            ≤ s.time + ex := by
          rw [hcollapse]
          have hsum := sumMapSetInt workP s.procs j (finalizeAt (s.time + ex) p2) hjlen
          rw [← hpS] at hsum
          have hwF : workP (finalizeAt (s.time + ex) p2) = pS.burstTime := by
            rw [workP]
            simp only [finalizeAt_burstTime, finalizeAt_remainingTime, hp2,
              subRemaining_burstTime, subRemaining_remainingTime, hp1b, hp1rem]
            omega
          have hwS : workP pS = pS.burstTime - pS.remainingTime := by
            rw [workP]
          have hw := h.hwork
          omega
        refine ⟨_, _, hstep.trans (if_neg hz), ?_, ?_, ?_⟩
        · refine invP_mk ?_ ?_ ?_ hnodupR3 ?_ hdone2 ?_ ?_ hwork2 ?_
          · rw [List.length_set, hlen2]
            omega
          · simp only [List.length_append, List.length_range' _ 1]
            omega
          · exact hmemR3
          · intro k hk
            have hkne : j ≠ k := by
              intro hbad
              exact hjnotinR3 (hbad ▸ hk)
            rw [hcollapse, listGetDSetNe _ default hkne]
            exact hreadyR3 k hk
          · intro k hk1 hk2
            rw [List.length_set, hlen2] at hk2
            rw [hcollapse, listGetDSetNe _ default (by omega)]
            exact h.hfresh k (by omega) hk2
          · omega
          · intro hfin2
            rw [List.length_set, hlen2] at hfin2
            have hlenR3 := congrArg List.length hr
            simp only [List.length_append, List.length_range' s.i 1,
              List.length_cons] at hlenR3
            have hrest0 : rest.length + (i3 - admitFrom s.procs s.time s.i) = 0 := by
              omega
            have hAll : ∀ k, k < (procs2.set j (finalizeAt (s.time + ex) p2)).length →
                DoneP ((procs2.set j (finalizeAt (s.time + ex) p2)).getD k default) := by
              intro k hk
              rw [List.length_set, hlen2] at hk
              refine hdone2 k (by omega) ?_
              intro hbad
              have := List.length_pos.mpr (List.ne_nil_of_mem hbad)
              simp only [List.length_append, List.length_range' _ 1] at this
              omega
            have hpoint : ∀ p ∈ procs2.set j (finalizeAt (s.time + ex) p2),
                workP p = p.burstTime := by
              refine forallMemOfForallGetD ?_
              intro k hk
              rcases hAll k hk with ⟨d1, d2, d3, d4, d5, d6, d7, d8⟩
              rw [workP]
              omega
            have hBurst : totalBurstI (procs2.set j (finalizeAt (s.time + ex) p2))
                = ((procs2.set j (finalizeAt (s.time + ex) p2)).map workP).sum := by
              rw [totalBurstI]
              exact (sumMapCongr workP (fun p => p.burstTime) _ hpoint).symm
            have hjlen2 : j < (procs2.set j (finalizeAt (s.time + ex) p2)).length := by
              rw [List.length_set, hlen2]
              exact hjlen
            have hmemF : finalizeAt (s.time + ex) p2 ∈
                procs2.set j (finalizeAt (s.time + ex) p2) := by
              have hmm := listGetDMem default hjlen2
              rw [hcollapse] at hmm ⊢
              rwa [listGetDSetSelf _ default hjlen] at hmm
            have hcmax := completionLeMaxCompletion hmemF
            rw [finalizeAt_completionTime] at hcmax
            rw [hBurst]
            omega
        · have hb2 := emptyBit_le_one
            { procs := s.procs.set j (finalizeAt (s.time + ex) p2),
              ready := rest ++ List.range' (admitFrom s.procs s.time s.i)
                (i3 - admitFrom s.procs s.time s.i),
              time := s.time + ex, i := i3, completed := s.completed + 1 }
          have hrem := sumMapSetNat (fun p => p.remainingTime.toNat) s.procs j
            (finalizeAt (s.time + ex) p2) hjlen
          rw [← hpS] at hrem
          have hremF : (finalizeAt (s.time + ex) p2).remainingTime = 0 := by
            rw [finalizeAt_remainingTime]
            exact hz0
          rw [measureP_lit, measureP]
          rw [List.length_set, hlen2]
          simp only [natRemSum]
          rw [hcollapse]
          simp only [natRemSum] at hrem
          rw [hremF] at hrem
          simp only [Int.toNat_zero] at hrem
          omega
        · rw [List.length_set, hlen2]
  · left
    refine ⟨?_, by omega⟩
    simp only [rrStep, hc, if_false]

theorem rrLoop_ok (q : Int) (hq : 1 ≤ q) :
    ∀ fuel s tr, InvP s → measureP s < fuel →
      ∃ out tr2, rrLoop q fuel s tr = .ok (out, tr2) ∧ out.length = s.procs.length ∧
        (∀ k, k < out.length → DoneP (out.getD k default)) ∧
        totalBurstI out ≤ maxCompletion out := by
  intro fuel
  induction fuel with
  | zero => intro s tr _ hm; omega
  | succ n ih =>
    intro s tr h hm
    rcases rrStep_spec q hq s h with ⟨hstep, hcl⟩ | ⟨s2, sl, hstep, h2, hlt, hlen⟩
    · refine ⟨s.procs, tr, ?_, rfl, ?_, h.hfin hcl⟩
      · simp only [rrLoop, hstep]
      · intro k hk
        have hcnt := h.hcount
        have hil := h.hi
        have hrlen : s.ready.length = 0 := by omega
        have hrnil : s.ready = [] := List.eq_nil_of_length_eq_zero hrlen
        refine h.hdone k (by omega) ?_
        rw [hrnil]
        exact List.not_mem_nil k
    · obtain ⟨out, tr2, hout, hl, hd, hb⟩ := ih s2 (tr ++ sl.toList) h2 (by omega)
      refine ⟨out, tr2, ?_, by omega, hd, hb⟩
      simp only [rrLoop, hstep]
      exact hout

/-! ### FCFS -/

theorem foldlMaxCompletionMono {a b : Int} (l : List Process) (h : a ≤ b) :
    l.foldl (fun m p => max m p.completionTime) a
      ≤ l.foldl (fun m p => max m p.completionTime) b := by
  induction l generalizing a b with
  | nil => exact h
  | cons x xs ih => exact ih (max_le_max h le_rfl)

theorem maxCompletion_cons_ge (p : Process) (l : List Process) :
    maxCompletion l ≤ maxCompletion (p :: l) := by
  rw [maxCompletion, maxCompletion]
  exact foldlMaxCompletionMono l (le_max_left 0 p.completionTime)

theorem fcfsLoop_props :
    ∀ (l : List Process) (t : Int), 0 ≤ t → ValidInput l →
      (fcfsLoop t l).length = l.length ∧
      (∀ p ∈ fcfsLoop t l, DoneNP p) ∧
      (l = [] ∨ t + totalBurstI l ≤ maxCompletion (fcfsLoop t l)) := by
  intro l
  induction l with
  | nil =>
    intro t ht hv
    refine ⟨rfl, ?_, Or.inl rfl⟩
    intro p hp
    cases hp
  | cons p ps ih =>
    intro t ht hv
    rcases hv p (List.mem_cons_self p ps) with ⟨v1, v2, v3, v4, v5⟩
    rw [fcfsLoop]
    set start := if t < p.arrivalTime then p.arrivalTime else t with hstart
    have hstart1 : t ≤ start ∧ p.arrivalTime ≤ start := by
      rw [hstart]
      split <;> omega
    obtain ⟨ihlen, ihdone, ihmax⟩ := ih (start + p.burstTime) (by omega)
      (fun r hr => hv r (List.mem_cons_of_mem p hr))
    have hDone2 : DoneNP { p with
        responseTime := start - p.arrivalTime
        completionTime := start + p.burstTime
        turnaroundTime := (start + p.burstTime) - p.arrivalTime
        waitingTime := ((start + p.burstTime) - p.arrivalTime) - p.burstTime } := by
      refine ⟨rfl, ?_, ?_, ?_, ?_, v2, v1, v3⟩ <;> simp only [] <;> omega
    refine ⟨by simpa using ihlen, ?_, ?_⟩
    · intro r hr
      rcases List.mem_cons.mp hr with hr | hr
      · rw [hr]
        exact hDone2
      · exact ihdone r hr
    · right
      rcases ihmax with hnil | hmax
      · subst hnil
        simp only [fcfsLoop, totalBurstI, List.map_cons, List.map_nil, List.sum_cons,
          List.sum_nil, maxCompletion, List.foldl_cons, List.foldl_nil]
        omega
      · refine le_trans ?_ (le_trans hmax (maxCompletion_cons_ge _ _))
        simp only [totalBurstI, List.map_cons, List.sum_cons]
        omega

/-! ### Schedule-level wrappers -/

theorem totalBurstI_sortByArrival (l : List Process) :
    totalBurstI (sortByArrival l) = totalBurstI l := by
  rw [totalBurstI, totalBurstI]
  exact List.Perm.sum_eq (List.Perm.map _ (sortByArrival_perm l))

theorem initState_procs (l : List Process) : (initState l).procs = l := rfl

theorem sortByArrival_length (l : List Process) :
    (sortByArrival l).length = l.length :=
  (sortByArrival_perm l).length_eq

theorem nonpreSchedule_ok (lt : Process → Process → Bool) {l : List Process}
    (hv : ValidInput l) :
    ∃ out, nonpreLoop lt (nonpreFuel (sortByArrival l)) (initState (sortByArrival l))
        = .ok out ∧
      out.length = l.length ∧ (∀ p ∈ out, DoneNP p) ∧
      totalBurstI out ≤ maxCompletion out := by
  have hv2 := validInput_sortByArrival hv
  obtain ⟨out, hok, hl, hd, hb⟩ := nonpreLoop_ok lt (nonpreFuel (sortByArrival l))
    (initState (sortByArrival l)) (invNP_initState hv2) (measureNP_init _)
  refine ⟨out, hok, ?_, forallMemOfForallGetD hd, hb⟩
  rw [hl, initState_procs, sortByArrival_length]

theorem preSchedule_ok (lt : Process → Process → Bool) {l : List Process}
    (hv : ValidInput l) :
    ∃ out, preLoop lt (preFuel (sortByArrival l)) (initState (sortByArrival l))
        = .ok out ∧
      out.length = l.length ∧ (∀ p ∈ out, DoneP p) ∧
      totalBurstI out ≤ maxCompletion out := by
  have hv2 := validInput_sortByArrival hv
  obtain ⟨out, hok, hl, hd, hb⟩ := preLoop_ok lt (preFuel (sortByArrival l))
    (initState (sortByArrival l)) (invP_initState hv2) (measureP_init hv2)
  refine ⟨out, hok, ?_, forallMemOfForallGetD hd, hb⟩
  rw [hl, initState_procs, sortByArrival_length]

theorem rrSchedule_ok {q : Int} (hq : 1 ≤ q) {l : List Process} (hv : ValidInput l) :
    ∃ out tr, rrSchedule q l = .ok (out, tr) ∧
      out.length = l.length ∧ (∀ p ∈ out, DoneP p) ∧
      totalBurstI out ≤ maxCompletion out := by
  obtain ⟨out, tr, hok, hl, hd, hb⟩ := rrLoop_ok q hq (preFuel l)
    (initState l) [] (invP_initState hv) (measureP_init hv)
  exact ⟨out, tr, hok, hl, forallMemOfForallGetD hd, hb⟩

theorem fcfsLoop_burst_map :
    ∀ (l : List Process) (t : Int),
      (fcfsLoop t l).map (fun p => p.burstTime) = l.map (fun p => p.burstTime) := by
  intro l
  induction l with
  | nil => intro t; rfl
  | cons p ps ih =>
    intro t
    rw [fcfsLoop]
    simp only [List.map_cons]
    rw [ih]

theorem fcfsSchedule_ok {l : List Process} (hv : ValidInput l) :
    (fcfsSchedule l).length = l.length ∧ (∀ p ∈ fcfsSchedule l, DoneNP p) ∧
      (l = [] ∨ totalBurstI (fcfsSchedule l) ≤ maxCompletion (fcfsSchedule l)) := by
  have hv2 := validInput_sortByArrival hv
  obtain ⟨hlen, hdone, hmax⟩ := fcfsLoop_props (sortByArrival l) 0 le_rfl hv2
  rw [fcfsSchedule]
  refine ⟨by rw [hlen, sortByArrival_length], hdone, ?_⟩
  rcases hmax with hnil | hmax
  · left
    have := sortByArrival_length l
    rw [hnil] at this
    exact List.eq_nil_of_length_eq_zero this.symm
  · right
    have hburst : totalBurstI (fcfsLoop 0 (sortByArrival l)) = totalBurstI (sortByArrival l) := by
      rw [totalBurstI, totalBurstI, fcfsLoop_burst_map]
    rw [hburst]
    omega

theorem metrics_throughput {out : List Process} (h1 : 0 < out.length)
    (hb1 : ∀ p ∈ out, 1 ≤ p.burstTime)
    (hmax : totalBurstI out ≤ maxCompletion out) :
    ∃ r : ℚ, (calculateMetrics out).throughput = some r ∧
      r = ((out.length : ℤ) : ℚ) / ((maxCompletion out : ℤ) : ℚ) ∧ 0 < r ∧ r ≤ 1 := by
  have hlb := lengthLeTotalBurstI hb1
  have hm1 : (out.length : ℤ) ≤ maxCompletion out := le_trans hlb hmax
  have hm0 : (0 : ℤ) < maxCompletion out := by
    have h2 : (1 : ℤ) ≤ (out.length : ℤ) := by exact_mod_cast h1
    omega
  have hden : (0 : ℚ) < ((maxCompletion out : ℤ) : ℚ) := by exact_mod_cast hm0
  have hnum : (0 : ℚ) < ((out.length : ℤ) : ℚ) := by exact_mod_cast h1
  refine ⟨((out.length : ℤ) : ℚ) / ((maxCompletion out : ℤ) : ℚ), ?_, rfl, ?_, ?_⟩
  · rw [calculateMetrics]
    simp only [divQ]
    rw [if_neg (by omega)]
  · exact div_pos hnum hden
  · rw [div_le_one hden]
    exact_mod_cast hm1

/-! ### Scheduler unfolding equations and the quantum-0 infinite loop -/

theorem sjfSchedule_eq (l : List Process) :
    sjfSchedule l
      = nonpreLoop sjfCmp (nonpreFuel (sortByArrival l)) (initState (sortByArrival l)) := rfl

theorem prioritySchedule_eq (l : List Process) :
    prioritySchedule l
      = nonpreLoop priCmp (nonpreFuel (sortByArrival l)) (initState (sortByArrival l)) := rfl

theorem srtfSchedule_eq (l : List Process) :
    srtfSchedule l
      = preLoop srtfCmp (preFuel (sortByArrival l)) (initState (sortByArrival l)) := rfl

theorem preemptivePrioritySchedule_eq (l : List Process) :
    preemptivePrioritySchedule l
      = preLoop ppCmp (preFuel (sortByArrival l)) (initState (sortByArrival l)) := rfl

theorem fcfsLoop_length :
    ∀ (l : List Process) (t : Int), (fcfsLoop t l).length = l.length := by
  intro l
  induction l with
  | nil => intro t; rfl
  | cons p ps ih =>
    intro t
    rw [fcfsLoop]
    simp only [List.length_cons, ih]

/-- Two lists sorted by arrival time that are permutations of each other and
whose arrival times are pairwise distinct are equal: on distinct keys the
sorted order is unique, so every correct sort produces it. -/
theorem sorted_perm_eq_of_distinct :
    ∀ (l1 l2 : List Process), l1.Perm l2 →
      l1.Pairwise (fun a b => a.arrivalTime ≤ b.arrivalTime) →
      l2.Pairwise (fun a b => a.arrivalTime ≤ b.arrivalTime) →
      l1.Pairwise (fun a b => a.arrivalTime ≠ b.arrivalTime) →
      l1 = l2 := by
  intro l1
  induction l1 with
  | nil =>
    intro l2 hp _ _ _
    exact hp.nil_eq
  | cons a t1 ih =>
    intro l2 hp hs1 hs2 hd
    cases l2 with
    | nil =>
      have hl := hp.length_eq
      simp at hl
    | cons b t2 =>
      obtain ⟨hs1a, hs1t⟩ := List.pairwise_cons.mp hs1
      obtain ⟨hs2b, hs2t⟩ := List.pairwise_cons.mp hs2
      obtain ⟨hda, hdt⟩ := List.pairwise_cons.mp hd
      have hab : a = b := by
        have hbmem : b ∈ a :: t1 := hp.symm.subset (List.mem_cons_self b t2)
        rcases List.mem_cons.mp hbmem with h | h
        · exact h.symm
        · have hamem : a ∈ b :: t2 := hp.subset (List.mem_cons_self a t1)
          rcases List.mem_cons.mp hamem with h2 | h2
          · exact h2
          · exact ((hda b h) (le_antisymm (hs1a b h) (hs2b a h2))).elim
      subst hab
      rw [ih t2 hp.cons_inv hs1t hs2t hdt]

/-- One iteration of the Round-Robin loop with quantum `0`, from an
`RRZeroInv` state: the loop always continues, into another `RRZeroInv`
state (every slice is `min(0, remainingTime) = 0`). -/
theorem rrStep_zero_inv (s : SimState) (h : RRZeroInv s) :
    ∃ s2 sl, rrStep 0 s = .next s2 sl ∧ RRZeroInv s2 := by
  obtain ⟨hc, hi, hcount, hmem, hrem⟩ := h
  have hge := admitFrom_ge s.procs s.time s.i
  have hle := admitFrom_le s.procs s.time hi
  have hmem2 : ∀ k ∈ s.ready ++ List.range' s.i (admitFrom s.procs s.time s.i - s.i),
      k < admitFrom s.procs s.time s.i := by
    intro k hk
    rcases List.mem_append.mp hk with hka | hkb
    · exact lt_of_lt_of_le (hmem k hka) hge
    · have := List.mem_range'_1.mp hkb
      omega
  cases hr : s.ready ++ List.range' s.i (admitFrom s.procs s.time s.i - s.i) with
  | nil =>
    have hlen := congrArg List.length hr
    simp only [List.length_append, List.length_range' s.i 1, List.length_nil] at hlen
    have hi2 : admitFrom s.procs s.time s.i < s.procs.length := by omega
    cases hstep : rrStep 0 s with
    | done out =>
      exfalso
      simp only [rrStep, hc, if_true, hr, dif_pos hi2] at hstep
      cases hstep
    | oob =>
      exfalso
      simp only [rrStep, hc, if_true, hr, dif_pos hi2] at hstep
      cases hstep
    | next s2 sl =>
      refine ⟨s2, sl, rfl, ?_⟩
      simp only [rrStep, hc, if_true, hr, dif_pos hi2] at hstep
      cases hstep
      refine ⟨hc, hle, ?_, ?_, hrem⟩
      · show s.ready.length + s.completed = admitFrom s.procs s.time s.i
        omega
      · show ∀ k ∈ s.ready, k < admitFrom s.procs s.time s.i
        intro k hk
        exact lt_of_lt_of_le (hmem k hk) hge
  | cons j rest =>
    have hlen := congrArg List.length hr
    simp only [List.length_append, List.length_range' s.i 1, List.length_cons] at hlen
    have hjlt : j < admitFrom s.procs s.time s.i := by
      refine hmem2 j ?_
      rw [hr]
      exact List.mem_cons_self j rest
    have hjlen : j < s.procs.length := lt_of_lt_of_le hjlt hle
    cases hstep : rrStep 0 s with
    | done out =>
      exfalso
      simp only [rrStep, hc, if_true, hr] at hstep
      split at hstep <;> cases hstep
    | oob =>
      exfalso
      simp only [rrStep, hc, if_true, hr] at hstep
      split at hstep <;> cases hstep
    | next s2 sl =>
      refine ⟨s2, sl, rfl, ?_⟩
      simp only [rrStep, hc, if_true, hr] at hstep
      set p1 := setResponse s.time (s.procs.getD j default) with hp1
      set p2 : Process := subRemaining (min 0 p1.remainingTime) p1 with hp2
      have hrem1 : 0 < p1.remainingTime := by
        rw [hp1, setResponse_remainingTime]
        exact hrem j hjlen
      have hrem2 : 0 < p2.remainingTime := by
        rw [hp2, subRemaining_remainingTime, min_eq_left hrem1.le]
        omega
      rw [if_pos hrem2] at hstep
      cases hstep
      have hle2 : admitFrom s.procs s.time s.i ≤ (s.procs.set j p2).length := by
        simpa [List.length_set] using hle
      have hge3 := admitFrom_ge (s.procs.set j p2) (s.time + min 0 p1.remainingTime)
        (admitFrom s.procs s.time s.i)
      have hle3 := admitFrom_le (s.procs.set j p2) (s.time + min 0 p1.remainingTime) hle2
      refine ⟨?_, ?_, ?_, ?_, ?_⟩
      · show s.completed < (s.procs.set j p2).length
        simpa [List.length_set] using hc
      · exact hle3
      · show ((rest ++ List.range' (admitFrom s.procs s.time s.i) _) ++ [j]).length
            + s.completed
            = admitFrom (s.procs.set j p2) (s.time + min 0 p1.remainingTime)
                (admitFrom s.procs s.time s.i)
        simp only [List.length_append, List.length_cons, List.length_range' _ 1,
          List.length_nil]
        omega
      · show ∀ k ∈ (rest ++ List.range' (admitFrom s.procs s.time s.i) _) ++ [j],
            k < admitFrom (s.procs.set j p2) (s.time + min 0 p1.remainingTime)
                (admitFrom s.procs s.time s.i)
        intro k hk
        rcases List.mem_append.mp hk with hk1 | hk2
        · rcases List.mem_append.mp hk1 with hk3 | hk4
          · have hk5 : k < admitFrom s.procs s.time s.i := by
              refine hmem2 k ?_
              rw [hr]
              exact List.mem_cons_of_mem j hk3
            omega
          · have := List.mem_range'_1.mp hk4
            omega
        · have hk6 : k = j := by simpa using hk2
          omega
      · show ∀ k, k < (s.procs.set j p2).length →
            0 < ((s.procs.set j p2).getD k default).remainingTime
        intro k hk
        have hk7 : k < s.procs.length := by simpa [List.length_set] using hk
        by_cases hkj : k = j
        · subst hkj
          rw [listGetDSetSelf p2 default hk7]
          exact hrem2
        · rw [listGetDSetNe p2 default (fun hh => hkj hh.symm)]
          exact hrem k hk7

/-- From an `RRZeroInv` state the quantum-0 Round-Robin loop never returns,
however much fuel it is given. -/
theorem rrLoop_zero_inv_diverges :
    ∀ fuel s tr, RRZeroInv s → rrLoop 0 fuel s tr = .error .outOfFuel := by
  intro fuel
  induction fuel with
  | zero =>
    intro s tr _
    rfl
  | succ n ih =>
    intro s tr h
    obtain ⟨s2, sl, hstep, h2⟩ := rrStep_zero_inv s h
    rw [rrLoop, hstep]
    exact ih s2 (tr ++ sl.toList) h2

/-- Any non-empty valid input starts the quantum-0 Round-Robin loop inside
`RRZeroInv`. -/
theorem rrZeroInv_initState {l : List Process} (hv : ValidInput l) (hne : l ≠ []) :
    RRZeroInv (initState l) := by
  refine ⟨?_, Nat.zero_le _, rfl, ?_, ?_⟩
  · simpa [initState] using List.length_pos.mpr hne
  · intro k hk
    simp [initState] at hk
  · intro j hj
    have hj2 : j < l.length := by simpa [initState] using hj
    have hmem := listGetDMem default hj2
    rcases hv _ hmem with ⟨-, v2, v3, -, -⟩
    show 0 < (l.getD j default).remainingTime
    omega

/-! ### The claims -/

/-- Claim C1, counterexample: on two simultaneous arrivals with priority
values 1 and 5, the non-preemptive Priority scheduler dispatches the
priority-5 process first (its response time is 0 and the priority-1
process waits), refuting the spec's ascending-priority-value order. -/
theorem priority_ascending_refuted :
    (prioritySchedule priorityPair).map (fun out => out.map (fun p => p.responseTime))
        = .ok [2, 0] ∧
    ¬ ((prioritySchedule priorityPair).map (fun out => out.map (fun p => p.responseTime))
        = .ok [0, 2]) := by
  decide

/-- Claim C1, amended: at every decision point of the non-preemptive Priority
scheduler, the dispatched process has the HIGHEST numeric priority value among
the ready set (the comparator `a->priority < b->priority` builds a max-heap).
The dispatch order among processes with equal priority values is left
unspecified by `std::priority_queue` and is not asserted. -/
theorem priority_dispatch_max_value (procs : List Process) (x : Nat) (l : List Nat)
    (k : Nat) (hk : k ∈ x :: l) :
    (procs.getD k default).priority ≤
      (procs.getD (selectMax (readyCmp procs priCmp) x l).1 default).priority :=
  selectMax_priCmp_ge procs x l k hk

/-- Witness for `priority_dispatch_max_value` at a concrete ready set. -/
theorem priority_dispatch_max_value_witness :
    (priorityPair.getD 0 default).priority ≤
      (priorityPair.getD (selectMax (readyCmp priorityPair priCmp) 0 [1]).1
        default).priority :=
  priority_dispatch_max_value priorityPair 0 [1] 0 (by decide)

/-- Claim C2, counterexample: Round Robin does NOT sort its process list, so
supplying the processes out of arrival order changes the computed output
fields: on `unsortedPair`, process 2 (arrival 0) completes at time 9 when
given second in the list, but at time 2 when the list is arrival-sorted. -/
theorem rr_unsorted_dependence :
    (rrSchedule 2 unsortedPair).map
        (fun o => o.1.map (fun p => (p.id, p.completionTime))) = .ok [(1, 7), (2, 9)] ∧
    (rrSchedule 2 (sortByArrival unsortedPair)).map
        (fun o => o.1.map (fun p => (p.id, p.completionTime))) = .ok [(2, 2), (1, 7)] := by
  decide

/-- Claim C2, amended: FCFS, SJF, SRTF, Priority and Preemptive Priority each
sort the process list once by arrival time before simulating (Round Robin
performs no sort, see `rr_unsorted_dependence`).  `std::sort` is not stable,
so the order among equal arrival times is unspecified; but whenever the
arrival times are pairwise distinct the arrival-sorted order is unique, and
the five sorting policies compute identical output fields on every
caller-supplied ordering of the process set. -/
theorem sorting_policies_order_independent (l2 l : List Process)
    (hperm : List.Perm l2 l)
    (hd : l.Pairwise (fun a b => a.arrivalTime ≠ b.arrivalTime)) :
    SortInvariance l2 l := by
  have hsort : sortByArrival l2 = sortByArrival l := by
    refine sorted_perm_eq_of_distinct (sortByArrival l2) (sortByArrival l)
      ((sortByArrival_perm l2).trans (hperm.trans (sortByArrival_perm l).symm))
      (sortByArrival_sorted l2) (sortByArrival_sorted l) ?_
    exact (List.Perm.pairwise_iff (fun h h2 => h h2.symm)
      ((sortByArrival_perm l2).trans hperm)).mpr hd
  refine ⟨sortByArrival_sorted l, hsort, ?_, ?_, ?_, ?_, ?_⟩
  · rw [fcfsSchedule, fcfsSchedule, hsort]
  · rw [sjfSchedule_eq, sjfSchedule_eq, hsort]
  · rw [prioritySchedule_eq, prioritySchedule_eq, hsort]
  · rw [srtfSchedule_eq, srtfSchedule_eq, hsort]
  · rw [preemptivePrioritySchedule_eq, preemptivePrioritySchedule_eq, hsort]

/-- Witness for `sorting_policies_order_independent`: the demo data set (whose
arrival times are pairwise distinct) supplied in shuffled order. -/
theorem sorting_policies_order_independent_witness :
    SortInvariance demoShuffled demoProcs :=
  sorting_policies_order_independent demoShuffled demoProcs (by decide) (by decide)

/-- Claim C3, counterexample: a process with negative burst time is not
rejected; FCFS computes its output fields anyway, producing the nonsensical
completion time `-1` and turnaround time `-1`. -/
theorem negative_burst_not_rejected :
    (fcfsSchedule negBurst).map
        (fun p => (p.completionTime, p.turnaroundTime, p.waitingTime)) = [(-1, -1, 0)] := by
  decide

/-- Claim C3, amended: the engine performs no input validation — FCFS
produces an output record for every process of every input, all six
schedulers run the negative-burst input `negBurst` to normal termination
computing the nonsensical completion time `-1` and turnaround time `-1`
instead of failing fast, and Round Robin accepts quantum 0 but then never
terminates on any non-empty valid process set, however much fuel the loop is
given (every slice is `min(0, remainingTime) = 0`, so no progress is made). -/
theorem no_input_validation :
    (∀ l : List Process, (fcfsSchedule l).length = l.length) ∧
    fcfsSchedule negBurst = [{ Process.init 1 0 (-1) 0 with
      responseTime := 0, completionTime := -1, turnaroundTime := -1, waitingTime := 0 }] ∧
    (sjfSchedule negBurst).map
        (fun out => out.map fun p => (p.completionTime, p.turnaroundTime)) = .ok [(-1, -1)] ∧
    (prioritySchedule negBurst).map
        (fun out => out.map fun p => (p.completionTime, p.turnaroundTime)) = .ok [(-1, -1)] ∧
    (srtfSchedule negBurst).map
        (fun out => out.map fun p => (p.completionTime, p.turnaroundTime)) = .ok [(-1, -1)] ∧
    (preemptivePrioritySchedule negBurst).map
        (fun out => out.map fun p => (p.completionTime, p.turnaroundTime)) = .ok [(-1, -1)] ∧
    (rrSchedule 2 negBurst).map
        (fun o => o.1.map fun p => (p.completionTime, p.turnaroundTime)) = .ok [(-1, -1)] ∧
    (∀ l : List Process, ValidInput l → l ≠ [] →
      ∀ fuel tr, rrLoop 0 fuel (initState l) tr = .error .outOfFuel) ∧
    rrSchedule 0 singleProc = .error .outOfFuel := by
  refine ⟨?_, by decide, by decide, by decide, by decide, by decide, by decide, ?_, by decide⟩
  · intro l
    rw [fcfsSchedule, fcfsLoop_length, sortByArrival_length]
  · intro l hv hne fuel tr
    exact rrLoop_zero_inv_diverges fuel (initState l) tr (rrZeroInv_initState hv hne)

/-- Claim C4, counterexample: on the empty process set `calculateMetrics`
divides by zero; in the embedding every metric is the undefined marker
`none` (IEEE NaN in the C++ program), not the zero the spec promises. -/
theorem zero_metrics_on_empty_refuted :
    (calculateMetrics []).throughput = none ∧
    ¬ ((calculateMetrics []).throughput = some 0) ∧
    (calculateMetrics []).avgWaitingTime = none ∧
    ¬ ((calculateMetrics []).avgWaitingTime = some 0) := by
  decide

/-- Claim C4, amended: every policy on the empty process set returns the empty
result set without error, but `calculateMetrics` divides by the zero process
count, so all four aggregate metrics are undefined (`none`, NaN in the C++
`double` arithmetic) rather than zero. -/
theorem empty_input_behaviour :
    fcfsSchedule [] = [] ∧
    sjfSchedule [] = .ok [] ∧
    prioritySchedule [] = .ok [] ∧
    srtfSchedule [] = .ok [] ∧
    preemptivePrioritySchedule [] = .ok [] ∧
    (∀ q : Int, rrSchedule q [] = .ok ([], [])) ∧
    calculateMetrics [] = { avgWaitingTime := none, avgTurnaroundTime := none,
                            avgResponseTime := none, throughput := none } := by
  exact ⟨rfl, rfl, rfl, rfl, rfl, fun q => rfl, rfl⟩

/-- Claim C5: for every valid process set (arrival times nonnegative, burst
times positive) and, for Round Robin, every positive quantum, all six
simulation loops terminate within the stated fuel and every process is
completed (preemptive policies drain `remainingTime` to 0; all policies give
each process a completion time at least `arrivalTime + burstTime`). -/
theorem all_policies_terminate (l : List Process) (q : Int)
    (hv : ValidInput l) (hq : 1 ≤ q) : TerminatesAll l q := by
  obtain ⟨hfl, hfd, -⟩ := fcfsSchedule_ok hv
  obtain ⟨o1, h1ok, h1l, h1d, -⟩ := nonpreSchedule_ok sjfCmp hv
  obtain ⟨o2, h2ok, h2l, h2d, -⟩ := nonpreSchedule_ok priCmp hv
  obtain ⟨o3, h3ok, h3l, h3d, -⟩ := preSchedule_ok srtfCmp hv
  obtain ⟨o4, h4ok, h4l, h4d, -⟩ := preSchedule_ok ppCmp hv
  obtain ⟨o5, tr5, h5ok, h5l, h5d, -⟩ := rrSchedule_ok hq hv
  exact ⟨⟨hfl, fun p hp => (hfd p hp).2.2.1⟩,
    ⟨o1, (sjfSchedule_eq l).trans h1ok, h1l, fun p hp => (h1d p hp).2.2.1⟩,
    ⟨o2, (prioritySchedule_eq l).trans h2ok, h2l, fun p hp => (h2d p hp).2.2.1⟩,
    ⟨o3, (srtfSchedule_eq l).trans h3ok, h3l,
      fun p hp => ⟨(h3d p hp).2.2.2.2.2.2.2, (h3d p hp).2.2.1⟩⟩,
    ⟨o4, (preemptivePrioritySchedule_eq l).trans h4ok, h4l,
      fun p hp => ⟨(h4d p hp).2.2.2.2.2.2.2, (h4d p hp).2.2.1⟩⟩,
    ⟨o5, tr5, h5ok, h5l, fun p hp => ⟨(h5d p hp).2.2.2.2.2.2.2, (h5d p hp).2.2.1⟩⟩⟩

/-- Witness for `all_policies_terminate` on the demo data set with quantum 2. -/
theorem all_policies_terminate_witness : TerminatesAll demoProcs 2 :=
  all_policies_terminate demoProcs 2 (by decide) (by decide)

/-- Claim C6: for every policy and every valid process set, every output
process satisfies `turnaroundTime = completionTime - arrivalTime` and
`waitingTime = turnaroundTime - burstTime`. -/
theorem timing_identities (l : List Process) (q : Int)
    (hv : ValidInput l) (hq : 1 ≤ q) : TimingIdentityAll l q := by
  obtain ⟨-, hfd, -⟩ := fcfsSchedule_ok hv
  obtain ⟨o1, h1ok, -, h1d, -⟩ := nonpreSchedule_ok sjfCmp hv
  obtain ⟨o2, h2ok, -, h2d, -⟩ := nonpreSchedule_ok priCmp hv
  obtain ⟨o3, h3ok, -, h3d, -⟩ := preSchedule_ok srtfCmp hv
  obtain ⟨o4, h4ok, -, h4d, -⟩ := preSchedule_ok ppCmp hv
  obtain ⟨o5, tr5, h5ok, -, h5d, -⟩ := rrSchedule_ok hq hv
  exact ⟨fun p hp => ⟨(hfd p hp).1, (hfd p hp).2.1⟩,
    ⟨o1, (sjfSchedule_eq l).trans h1ok, fun p hp => ⟨(h1d p hp).1, (h1d p hp).2.1⟩⟩,
    ⟨o2, (prioritySchedule_eq l).trans h2ok, fun p hp => ⟨(h2d p hp).1, (h2d p hp).2.1⟩⟩,
    ⟨o3, (srtfSchedule_eq l).trans h3ok, fun p hp => ⟨(h3d p hp).1, (h3d p hp).2.1⟩⟩,
    ⟨o4, (preemptivePrioritySchedule_eq l).trans h4ok,
      fun p hp => ⟨(h4d p hp).1, (h4d p hp).2.1⟩⟩,
    ⟨o5, tr5, h5ok, fun p hp => ⟨(h5d p hp).1, (h5d p hp).2.1⟩⟩⟩

/-- Witness for `timing_identities` on the demo data set with quantum 2. -/
theorem timing_identities_witness : TimingIdentityAll demoProcs 2 :=
  timing_identities demoProcs 2 (by decide) (by decide)

/-- Claim C7: for every valid process set, after any of the six simulations
every process has nonnegative waiting and response times; under FCFS, SJF and
non-preemptive Priority additionally `responseTime ≤ waitingTime` (they are in
fact equal), and under SRTF, Round Robin and Preemptive Priority
`responseTime ≤ completionTime - arrivalTime`. -/
theorem timing_bounds (l : List Process) (q : Int)
    (hv : ValidInput l) (hq : 1 ≤ q) : TimingBoundsAll l q := by
  obtain ⟨-, hfd, -⟩ := fcfsSchedule_ok hv
  obtain ⟨o1, h1ok, -, h1d, -⟩ := nonpreSchedule_ok sjfCmp hv
  obtain ⟨o2, h2ok, -, h2d, -⟩ := nonpreSchedule_ok priCmp hv
  obtain ⟨o3, h3ok, -, h3d, -⟩ := preSchedule_ok srtfCmp hv
  obtain ⟨o4, h4ok, -, h4d, -⟩ := preSchedule_ok ppCmp hv
  obtain ⟨o5, tr5, h5ok, -, h5d, -⟩ := rrSchedule_ok hq hv
  refine ⟨fun p hp => ?_,
    ⟨o1, (sjfSchedule_eq l).trans h1ok, fun p hp => ?_⟩,
    ⟨o2, (prioritySchedule_eq l).trans h2ok, fun p hp => ?_⟩,
    ⟨o3, (srtfSchedule_eq l).trans h3ok, fun p hp => ?_⟩,
    ⟨o4, (preemptivePrioritySchedule_eq l).trans h4ok, fun p hp => ?_⟩,
    ⟨o5, tr5, h5ok, fun p hp => ?_⟩⟩
  · obtain ⟨d1, d2, d3, d4, d5, d6, d7, d8⟩ := hfd p hp
    exact ⟨by omega, d4, by omega⟩
  · obtain ⟨d1, d2, d3, d4, d5, d6, d7, d8⟩ := h1d p hp
    exact ⟨by omega, d4, by omega⟩
  · obtain ⟨d1, d2, d3, d4, d5, d6, d7, d8⟩ := h2d p hp
    exact ⟨by omega, d4, by omega⟩
  · obtain ⟨d1, d2, d3, d4, d5, d6, d7, d8⟩ := h3d p hp
    exact ⟨by omega, d4, by omega⟩
  · obtain ⟨d1, d2, d3, d4, d5, d6, d7, d8⟩ := h4d p hp
    exact ⟨by omega, d4, by omega⟩
  · obtain ⟨d1, d2, d3, d4, d5, d6, d7, d8⟩ := h5d p hp
    exact ⟨by omega, d4, by omega⟩

/-- Witness for `timing_bounds` on the demo data set with quantum 2. -/
theorem timing_bounds_witness : TimingBoundsAll demoProcs 2 :=
  timing_bounds demoProcs 2 (by decide) (by decide)

/-- Claim C8: on Scenario C (processes `{(1,0,4),(2,1,3)}`, quantum 2) Round
Robin — which admits arrivals that occurred during the just-run slice before
re-enqueueing the preempted process — executes the slices
`1:[0,2), 2:[2,4), 1:[4,6), 2:[6,7)`, completing process 1 at 6 and
process 2 at 7. -/
theorem rr_scenario_c :
    rrSchedule 2 scenarioC = .ok
      ([{ Process.init 1 0 4 0 with
            remainingTime := 0, completionTime := 6, turnaroundTime := 6,
            waitingTime := 2, responseTime := 0 },
        { Process.init 2 1 3 0 with
            remainingTime := 0, completionTime := 7, turnaroundTime := 6,
            waitingTime := 3, responseTime := 1 }],
       [(1, 0, 2), (2, 2, 4), (1, 4, 6), (2, 6, 7)]) := by
  decide

/-- Claim C9: for every process list (well-formed or not) and any amount of
fuel, none of the five queue-based simulation loops ever takes the
out-of-bounds branch reading `processes[i]` with `i = processes.size()`:
whenever the ready set is empty with work left, an unadmitted process
remains. -/
theorem internal_exhaustion_unreachable (l : List Process) : NoOutOfBoundsAll l := by
  intro fuel
  exact ⟨nonpreLoop_no_oob sjfCmp fuel _ (countInv_initState _),
    nonpreLoop_no_oob priCmp fuel _ (countInv_initState _),
    preLoop_no_oob srtfCmp fuel _ (countInv_initState _),
    preLoop_no_oob ppCmp fuel _ (countInv_initState _),
    fun q tr => rrLoop_no_oob q fuel _ tr (countInv_initState _)⟩

/-- Claim C10: for every policy, every non-empty valid process set and, for
Round Robin, every positive quantum, the computed throughput is exactly the
process count divided by the maximum completion time, and it lies in the
half-open interval `(0, 1]`. -/
theorem throughput_correct (l : List Process) (q : Int)
    (hv : ValidInput l) (hne : l ≠ []) (hq : 1 ≤ q) : ThroughputAll l q := by
  have hlp : 0 < l.length := List.length_pos.mpr hne
  obtain ⟨hfl, hfd, hfb⟩ := fcfsSchedule_ok hv
  rcases hfb with h | hfb
  · exact absurd h hne
  obtain ⟨o1, h1ok, h1l, h1d, h1b⟩ := nonpreSchedule_ok sjfCmp hv
  obtain ⟨o2, h2ok, h2l, h2d, h2b⟩ := nonpreSchedule_ok priCmp hv
  obtain ⟨o3, h3ok, h3l, h3d, h3b⟩ := preSchedule_ok srtfCmp hv
  obtain ⟨o4, h4ok, h4l, h4d, h4b⟩ := preSchedule_ok ppCmp hv
  obtain ⟨o5, tr5, h5ok, h5l, h5d, h5b⟩ := rrSchedule_ok hq hv
  refine ⟨⟨hfl, metrics_throughput (by omega) (fun p hp => (hfd p hp).2.2.2.2.2.1) hfb⟩,
    ⟨o1, (sjfSchedule_eq l).trans h1ok, h1l,
      metrics_throughput (by omega) (fun p hp => (h1d p hp).2.2.2.2.2.1) h1b⟩,
    ⟨o2, (prioritySchedule_eq l).trans h2ok, h2l,
      metrics_throughput (by omega) (fun p hp => (h2d p hp).2.2.2.2.2.1) h2b⟩,
    ⟨o3, (srtfSchedule_eq l).trans h3ok, h3l,
      metrics_throughput (by omega) (fun p hp => (h3d p hp).2.2.2.2.2.1) h3b⟩,
    ⟨o4, (preemptivePrioritySchedule_eq l).trans h4ok, h4l,
      metrics_throughput (by omega) (fun p hp => (h4d p hp).2.2.2.2.2.1) h4b⟩,
    ⟨o5, tr5, h5ok, h5l,
      metrics_throughput (by omega) (fun p hp => (h5d p hp).2.2.2.2.2.1) h5b⟩⟩

/-- Witness for `throughput_correct` on the demo data set with quantum 2. -/
theorem throughput_correct_witness : ThroughputAll demoProcs 2 :=
  throughput_correct demoProcs 2 (by decide) (by decide) (by decide)
